import Mathlib

/-!
# shuttle: expiry-ordered DNS cache and per-connection capture pipeline

A shallow embedding of `dns/cache.go` (the `CachePool` min-heap, the
`CacheManager` with its eviction timer, `ResolveDomainByCache`) and of
`dump.go` (the `FileDump` capture registry and its session workers),
followed by the properties proved about them.

Conventions of the embedding.

* Go `int` indices are `Int`; a slice index out of range is a run-time panic,
  rendered as `none`.
* `time.Time` and `time.Duration` are `Int` nanoseconds.
* The loops of `container/heap` and of `refresh` are run on a fuel counter
  that is set from the length of the pool; the totality theorems show the
  counter is never exhausted.
* Locks protect single method calls; every method call is one atomic step.
  Of the lock of `FileDump` the state records whether a call that has
  returned left it held; a call made then never returns, rendered as `none`.
* The resolver, and the errors the system answers file operations with, are
  parameters.
* A byte slice that is passed on without a copy shares its memory with the
  caller: the holder has the bytes the memory has now, and a store of the
  caller into that memory is a step of its own (`FileDump.overwrite`).
-/

set_option autoImplicit false

namespace dns

/-! ## `dns/cache.go`: the pool -/

/-- The constant `CacheTTL = 10 * time.Minute`, in nanoseconds. -/
def CacheTTL : Int := 10 * (60 * 1000000000)

/-- The struct `CacheEntity`: a payload and its absolute expiry time. -/
structure CacheEntity (α : Type) where
  data : α
  expires : Int
deriving DecidableEq, Repr

/-- The struct `CachePool`: the slice `list` (the lock is not modelled). -/
structure CachePool (α : Type) where
  list : List (CacheEntity α)
deriving DecidableEq, Repr

variable {α : Type}

/-- The function `NewCachePool`: an empty slice. -/
def NewCachePool : CachePool α := ⟨[]⟩

/-- Slice indexing `c.list[i]` with a Go `int` index; `none` is the
index-out-of-range panic. -/
def CachePool.idx (c : CachePool α) (i : Int) : Option (CacheEntity α) :=
  if i < 0 then none else c.list[i.toNat]?

/-- The method `Head`: `c.list[0]` when the slice is non-empty, else nil. -/
def CachePool.Head (c : CachePool α) : Option (CacheEntity α) :=
  if c.list.length > 0 then c.list[0]? else none

/-- The method `Len`. -/
def CachePool.Len (c : CachePool α) : Int := c.list.length

/-- The method `Less`: `c.list[i].expires.Before(c.list[j].expires)`.
It has no bounds guard: an index out of range panics (`none`). -/
def CachePool.Less (c : CachePool α) (i j : Int) : Option Bool :=
  match c.idx i, c.idx j with
  | some a, some b => some (decide (a.expires < b.expires))
  | _, _ => none

/-- The method `Swap`: guarded, a no-op when the slice is empty or an index is
out of range; otherwise `c.list[i], c.list[j] = c.list[j], c.list[i]`. -/
def CachePool.Swap (c : CachePool α) (i j : Int) : CachePool α :=
  let l : Int := c.list.length
  if l = 0 ∨ i < 0 ∨ j < 0 ∨ i ≥ l ∨ j ≥ l then c
  else
    match c.list[i.toNat]?, c.list[j.toNat]? with
    | some a, some b => ⟨(c.list.set i.toNat b).set j.toNat a⟩
    | _, _ => c

/-- The method `Push`: `c.list = append(c.list, cell)`. -/
def CachePool.Push (c : CachePool α) (x : CacheEntity α) : CachePool α :=
  ⟨c.list ++ [x]⟩

/-- The method `Pop`: nil on an empty slice, otherwise the last element is
returned and cut off. -/
def CachePool.Pop (c : CachePool α) : CachePool α × Option (CacheEntity α) :=
  if c.list.length = 0 then (c, none)
  else (⟨c.list.dropLast⟩, c.list.getLast?)

/-- The method `Range`: the payload of the first element whose payload
satisfies `f`, or nil. The pool is returned with the result, as the method
has a pointer receiver. -/
def CachePool.Range (c : CachePool α) (f : α → Bool) : CachePool α × Option α :=
  let rec scan : List (CacheEntity α) → Option α
    | [] => none
    | v :: rest => if f v.data then some v.data else scan rest
  (c, scan c.list)

/-- The method `Clear`: `c.list = c.list[:0]`. -/
def CachePool.Clear (_c : CachePool α) : CachePool α := ⟨[]⟩

/-! ## `container/heap` over `CachePool` -/

/-- Truncated division by two of a Go `int` (`(j - 1) / 2` rounds toward
zero). -/
def goDiv2 (a : Int) : Int := Int.tdiv a 2

/-- The loop of `heap.up`: while the element at `j` is less than its parent
`i = (j-1)/2`, swap them and continue from `i`. -/
def up : Nat → CachePool α → Int → Option (CachePool α)
  | 0, _, _ => none
  | fuel + 1, h, j =>
    let i := goDiv2 (j - 1)
    if i = j then some h
    else
      match h.Less j i with
      | none => none
      | some false => some h
      | some true => up fuel (h.Swap i j) i

/-- The loop of `heap.down` (its boolean result is not used by `heap.Pop`):
from `i`, pick the smaller child below `n`; stop when there is none or it is
not less than the element at `i`; otherwise swap and continue from the
child. -/
def down : Nat → CachePool α → Int → Int → Option (CachePool α)
  | 0, _, _, _ => none
  | fuel + 1, h, i, n =>
    let j1 := 2 * i + 1
    if j1 ≥ n ∨ j1 < 0 then some h
    else
      let j2 := j1 + 1
      let pick : Option Int :=
        if j2 < n then
          match h.Less j2 j1 with
          | none => none
          | some true => some j2
          | some false => some j1
        else some j1
      match pick with
      | none => none
      | some j =>
        match h.Less j i with
        | none => none
        | some false => some h
        | some true => down fuel (h.Swap i j) j n

/-- The function `heap.Push(h, x)`: `h.Push(x); up(h, h.Len()-1)`. -/
def heapPush (h : CachePool α) (x : CacheEntity α) : Option (CachePool α) :=
  let h1 := h.Push x
  up (h1.list.length + 1) h1 (h1.Len - 1)

/-- The function `heap.Pop(h)`:
`n := h.Len() - 1; h.Swap(0, n); down(h, 0, n); return h.Pop()`. -/
def heapPop (h : CachePool α) : Option (CachePool α × Option (CacheEntity α)) :=
  let n := h.Len - 1
  let h1 := h.Swap 0 n
  match down (h1.list.length + 1) h1 0 n with
  | none => none
  | some h2 => some h2.Pop

/-- One heap operation on the pool. -/
inductive HeapOp (α : Type) where
  | push (x : CacheEntity α)
  | pop

/-- Apply a sequence of `heap.Push` / `heap.Pop` calls, left to right. -/
def runOps : CachePool α → List (HeapOp α) → Option (CachePool α)
  | h, [] => some h
  | h, HeapOp.push x :: ops =>
    match heapPush h x with
    | none => none
    | some h1 => runOps h1 ops
  | h, HeapOp.pop :: ops =>
    match heapPop h with
    | none => none
    | some (h1, _) => runOps h1 ops

/-- The expiry stored at index `i` of a slice (`0` outside the slice; only
indices inside it are ever compared). -/
def keyD (l : List (CacheEntity α)) (i : Nat) : Int :=
  match l[i]? with
  | some e => e.expires
  | none => 0

/-- The heap order on the first `n` slots, on the keys alone: every slot other
than the root holds a key no smaller than its parent's. -/
def HeapKeys (f : Nat → Int) (n : Nat) : Prop :=
  ∀ k, 0 < k → k < n → f ((k - 1) / 2) ≤ f k

/-- Exchange of the values at two arguments. -/
def swapF (f : Nat → Int) (i j : Nat) : Nat → Int :=
  fun k => if k = i then f j else if k = j then f i else f k

/-- Exchange of two slots of a slice, both in range. -/
def swapL (l : List (CacheEntity α)) (i j : Nat) : List (CacheEntity α) :=
  match l[i]?, l[j]? with
  | some a, some b => (l.set i b).set j a
  | _, _ => l

/-- Heap order on the first `n` slots except between slot `j` and its parent:
the state of the slice in the middle of `heap.up`. -/
def UpHole (f : Nat → Int) (n j : Nat) : Prop :=
  (∀ k, 0 < k → k < n → k ≠ j → f ((k - 1) / 2) ≤ f k) ∧
  (∀ k, 0 < k → k < n → (k - 1) / 2 = j → 0 < j → f ((j - 1) / 2) ≤ f k)

/-- Heap order on the first `n` slots except between slot `i` and its
children: the state of the slice in the middle of `heap.down`. -/
def DownHole (f : Nat → Int) (n i : Nat) : Prop :=
  (∀ k, 0 < k → k < n → (k - 1) / 2 ≠ i → f ((k - 1) / 2) ≤ f k) ∧
  (∀ k, 0 < k → k < n → (k - 1) / 2 = i → 0 < i → f ((i - 1) / 2) ≤ f k)

/-- The heap invariant of the pool, as the specification words it: every
index with a child is no later than its left child and, when present, its
right child. -/
def HeapInv (c : CachePool α) : Prop :=
  ∀ i a, c.list[i]? = some a →
    (∀ b, c.list[2 * i + 1]? = some b → a.expires ≤ b.expires) ∧
    (∀ b, c.list[2 * i + 2]? = some b → a.expires ≤ b.expires)



/-! ## `dns/cache.go`: the manager and its timer -/

/-- The `time.Timer` of the manager, as far as the manager uses it: the
instant of its creation or last `Reset`, and the duration it was given. -/
structure Timer where
  setAt : Int
  wait : Int
deriving DecidableEq, Repr

/-- The instant from which the timer's channel is ready. A timer set to a
duration that is not positive expires at once (`time`: "after at least
duration d"; the runtime takes `when = now` for `d <= 0`). -/
def Timer.deadline (t : Timer) : Int :=
  if t.wait ≤ 0 then t.setAt else t.setAt + t.wait

/-- The method `Timer.Reset(d)` called at the instant `now`. -/
def Timer.Reset (_t : Timer) (now d : Int) : Timer := ⟨now, d⟩

/-- Whether a receive on `timer.C` can proceed at the instant `now`. -/
def Timer.ready (t : Timer) (now : Int) : Bool := decide (t.deadline ≤ now)

/-- The struct `CacheManager` (the `cancel` channel carries no data and its
receive branch does nothing; it is not modelled). -/
structure CacheManager (α : Type) where
  timer : Timer
  pool : CachePool α
deriving DecidableEq, Repr

/-- The function `NewCacheManager`, called at the instant `now`: a timer of
`10 * 60 * time.Second` and an empty pool. -/
def NewCacheManager (now : Int) : CacheManager α :=
  ⟨⟨now, 10 * 60 * 1000000000⟩, NewCachePool⟩

/-- The method `CacheManager.Range`. -/
def CacheManager.Range (c : CacheManager α) (f : α → Bool) : CacheManager α × Option α :=
  let r := c.pool.Range f
  (⟨c.timer, r.1⟩, r.2)

/-- The loop `for wait < 0 { heap.Pop; if Head() == nil { break }; ... }` of
`refresh`, with the clock reading `now`. It returns the pool and the last
value of `wait`. -/
def refreshLoop : Nat → CachePool α → Int → Int → Option (CachePool α × Int)
  | 0, _, _, _ => none
  | fuel + 1, pool, now, wait =>
    if wait < 0 then
      match heapPop pool with
      | none => none
      | some (pool1, _) =>
        match pool1.Head with
        | none => some (pool1, wait)
        | some entity => refreshLoop fuel pool1 now (entity.expires - now)
    else some (pool, wait)

/-- The method `refresh`, run at the instant `now` (the clock is read as one
value during the call). -/
def CacheManager.refresh (c : CacheManager α) (now : Int) : Option (CacheManager α) :=
  let r : Option (CachePool α × Int) :=
    match c.pool.Head with
    | some entity => refreshLoop (c.pool.list.length + 1) c.pool now (entity.expires - now)
    | none => some (c.pool, -1)
  match r with
  | none => none
  | some (pool1, wait) =>
    let wait1 : Int := if wait < -1 then 10 * 60 * 1000000000 else wait
    some ⟨c.timer.Reset now wait1, pool1⟩

/-- The method `CacheManager.Push(data, ttl)` at the instant `now`:
`heap.Push` of an entity expiring at `now + ttl`, then `refresh`. -/
def CacheManager.Push (c : CacheManager α) (data : α) (ttl now : Int) :
    Option (CacheManager α) :=
  match heapPush c.pool ⟨data, now + ttl⟩ with
  | none => none
  | some pool1 => (⟨c.timer, pool1⟩ : CacheManager α).refresh now

/-- One turn of the loop of `Run` through `case <-c.timer.C`, at the instant
`now`: `heap.Pop(c.pool)` then `refresh`. -/
def CacheManager.fire (c : CacheManager α) (now : Int) : Option (CacheManager α) :=
  match heapPop c.pool with
  | none => none
  | some (pool1, _) => (⟨c.timer, pool1⟩ : CacheManager α).refresh now

/-- The method `CacheManager.Clear`. -/
def CacheManager.Clear (c : CacheManager α) : CacheManager α :=
  ⟨c.timer, c.pool.Clear⟩

/-- A step of the manager: a `Push` call, or the maintenance loop receiving
from the timer. -/
inductive Step (α : Type) where
  | push (data : α) (ttl now : Int)
  | fire (now : Int)

/-- The instant at which a step happens. -/
def Step.time : Step α → Int
  | Step.push _ _ now => now
  | Step.fire now => now

/-- Whether a step can be taken: a timer fire needs the timer to be ready. -/
def Step.enabled (c : CacheManager α) : Step α → Bool
  | Step.push _ _ _ => true
  | Step.fire now => c.timer.ready now

/-- The effect of a step. -/
def CacheManager.step (c : CacheManager α) : Step α → Option (CacheManager α)
  | Step.push data ttl now => c.Push data ttl now
  | Step.fire now => c.fire now

/-- An execution: steps taken one after the other, each one enabled when it is
taken. `none` when a step is not enabled (or does not return). -/
def CacheManager.run : CacheManager α → List (Step α) → Option (CacheManager α)
  | c, [] => some c
  | c, st :: rest =>
    if st.enabled c then
      match c.step st with
      | none => none
      | some c1 => c1.run rest
    else none

/-- The state of the timer right after a `refresh` at the instant `now`: it
was reset at `now`; over an empty pool with `-1` or ten minutes, otherwise with
the time left to the expiry of the head, which is not negative. -/
def Armed (c : CacheManager α) (now : Int) : Prop :=
  c.timer.setAt = now ∧
  ((c.pool.list = [] ∧ (c.timer.wait = -1 ∨ c.timer.wait = 10 * 60 * 1000000000)) ∨
    (∃ e, c.pool.Head = some e ∧ c.timer.wait = e.expires - now ∧ 0 ≤ c.timer.wait))

/-- The timer targets the head: when the pool is not empty, the timer becomes
ready exactly at the expiry of the entry at index 0. -/
def TimerAtHead (c : CacheManager α) : Prop :=
  ∀ e, c.pool.Head = some e → c.timer.deadline = e.expires

/-! ## `dns/cache.go`: `ResolveDomainByCache` -/

/-- Modelled from the spec: the struct `Answer` is declared in a file of the
package that is not part of the sources at hand; the specification gives it
the queried domain name and the resolved addresses. -/
structure Answer where
  Domain : String
  IPs : List String
deriving DecidableEq, Repr

/-- The package state: the global `dnsCacheManager`, and the arguments of the
calls made to the resolver `ResolveDomain` so far, oldest first. -/
structure Resolver where
  dnsCacheManager : CacheManager Answer
  resolved : List String
deriving DecidableEq, Repr

/-- The function `ResolveDomainByCache(domain)` at the instant `now`. The
resolver `ResolveDomain` of the package is a parameter; `ε` is the type of its
errors. The result is Go's `(*Answer, error)`. -/
def ResolveDomainByCache {ε : Type} (ResolveDomain : String → Except ε Answer)
    (now : Int) (s : Resolver) (domain : String) :
    Option (Resolver × Except ε Answer) :=
  let r := s.dnsCacheManager.Range (fun answer => decide (answer.Domain = domain))
  match r.2 with
  | some matched => some (⟨r.1, s.resolved⟩, Except.ok matched)
  | none =>
    match ResolveDomain domain with
    | Except.error err => some (⟨r.1, s.resolved ++ [domain]⟩, Except.error err)
    | Except.ok answer =>
      match r.1.Push answer CacheTTL now with
      | none => none
      | some m => some (⟨m, s.resolved ++ [domain]⟩, Except.ok answer)

end dns

namespace shuttle

/-! ## `dump.go`: commands, artifact names, the artifact directory -/

/-- A byte slice. -/
abbrev Bytes := List UInt8

/-- A non-nil Go `error`, by its message. -/
abbrev Err := String

/-- The constant `DumpOrderWrite` (`iota` = 0). -/
def DumpOrderWrite : Int := 0

/-- The constant `DumpOrderClose` (`iota` = 1). -/
def DumpOrderClose : Int := 1

/-- The constant `DumpRequestEntity` (`iota` = 2). -/
def DumpRequestEntity : Int := 2

/-- The constant `DumpResponseEntity` (`iota` = 3). -/
def DumpResponseEntity : Int := 3

/-- The struct `fileDumpEntity`: a command sent to a session worker. The
field `data` of a write command is the slice of the caller itself, not a copy
of it: it holds the bytes the memory of that slice has now, which the caller
can still change while the command is queued (`FileDump.overwrite`). -/
structure fileDumpEntity where
  data : Bytes
  order : Int
  entityType : Int
deriving DecidableEq, Repr

/-- The command `&fileDumpEntity{order: DumpOrderClose}` (the other fields
hold their zero values). -/
def closeCmd : fileDumpEntity := ⟨[], DumpOrderClose, 0⟩

/-- The decimal digits of a natural number, most significant first. -/
def digitsOf : Nat → Nat → List Char
  | 0, _ => []
  | fuel + 1, n =>
    if n < 10 then [Nat.digitChar n]
    else digitsOf fuel (n / 10) ++ [Nat.digitChar (n % 10)]

/-- The verb `%d` of `fmt.Sprintf` applied to an `int64`. -/
def fmtD (id : Int) : List Char :=
  if id < 0 then '-' :: digitsOf (id.natAbs + 1) id.natAbs
  else digitsOf (id.natAbs + 1) id.natAbs

/-- The path `fmt.Sprintf("./temp/%d_request.txt", id)`. -/
def requestFile (id : Int) : String :=
  String.mk ("./temp/".data ++ fmtD id ++ "_request.txt".data)

/-- The path `fmt.Sprintf("./temp/%d_reponse.txt", id)` (spelt so in the
worker and in `ReadResponse` alike). -/
def responseFile (id : Int) : String :=
  String.mk ("./temp/".data ++ fmtD id ++ "_reponse.txt".data)

/-- The directory `temp` of the working directory: whether it exists, and the
files in it by path, the latest write of a path first. -/
structure FS where
  dir : Bool
  files : List (String × Bytes)
deriving DecidableEq, Repr

/-- The first binding of a path in a list of files. -/
def lookupFile : List (String × Bytes) → String → Option Bytes
  | [], _ => none
  | (n, d) :: rest, name => if n = name then some d else lookupFile rest name

/-- The content of the file at a path, when the directory and the file exist. -/
def FS.get (fs : FS) (name : String) : Option Bytes :=
  if fs.dir then lookupFile fs.files name else none

/-- The error of a path that does not exist. -/
def errNotExist : Err := "no such file or directory"

/-- The error of a path that exists already. -/
def errExist : Err := "file exists"

/-- The function `os.IsNotExist`. -/
def IsNotExist (err : Option Err) : Bool := decide (err = some errNotExist)

/-- The error of a path one of whose directories is not a directory. -/
def errNotDir : Err := "not a directory"

/-- The error result of `os.Stat` on a file of the directory; `fault` is the
error the system makes the call fail with, if any (a `temp` that is a regular
file, a directory that may not be searched). Without one the call fails when
the file does not exist, and with that error. -/
def Stat (fs : FS) (name : String) (fault : Option Err) : Option Err :=
  match fault with
  | some e => some e
  | none => if (fs.get name).isSome then none else some errNotExist

/-- The error result of `os.Stat("temp/")`. -/
def StatDir (fs : FS) : Option Err :=
  if fs.dir then none else some errNotExist

/-- The function `ioutil.WriteFile(name, data, 0644)`; `fault` is the error the
system makes the write fail with, if any. It also fails when the directory is
missing. A failed write is taken to leave the file as it was. -/
def WriteFile (fs : FS) (name : String) (data : Bytes) (fault : Option Err) :
    FS × Option Err :=
  match fault with
  | some e => (fs, some e)
  | none =>
    if fs.dir then (⟨true, (name, data) :: fs.files⟩, none)
    else (fs, some errNotExist)

/-- The function `ioutil.ReadFile(name)`; `fault` is the error the system makes
the read fail with, if any. It also fails when the file does not exist. -/
def ReadFile (fs : FS) (name : String) (fault : Option Err) : Except Err Bytes :=
  match fault with
  | some e => Except.error e
  | none =>
    match fs.get name with
    | some d => Except.ok d
    | none => Except.error errNotExist

/-- The function `os.RemoveAll("temp")`; `fault` is the error the system makes
it fail with, if any. A failed removal is taken to leave the directory as it
was. -/
def RemoveAll (fs : FS) (fault : Option Err) : FS × Option Err :=
  match fault with
  | some e => (fs, some e)
  | none => (⟨false, []⟩, none)

/-- The function `os.Mkdir("temp", os.ModePerm)`; `fault` is the error the
system makes it fail with, if any. It also fails when the directory exists. -/
def Mkdir (fs : FS) (fault : Option Err) : FS × Option Err :=
  match fault with
  | some e => (fs, some e)
  | none => if fs.dir then (fs, some errExist) else (⟨true, []⟩, none)

/-! ## `dump.go`: sessions and the registry -/

/-- A capture session: the channel `dataChan` made by one `InitDump` call and
the goroutine that serves it. `chan` is every command sent on the channel so
far, oldest first, and `recv` the number of them the worker has received; the
capacity of 8 only delays a sender until the worker has received, so the
channel is its sequence of commands. -/
structure Session where
  id : Int
  chan : List fileDumpEntity
  recv : Nat
  reqBuf : Bytes
  respBuf : Bytes
  returned : Bool
deriving DecidableEq, Repr

/-- The struct `FileDump` with what its methods act on: the map `Actives`
(connection id to channel, a channel being its index in `sessions`), whether
the exclusive lock is held by a call that has returned, the sessions made so
far, the artifact directory, and the `ioutil.WriteFile` calls made so far
(path, data, error). -/
structure FileDump where
  Actives : List (Int × Nat)
  locked : Bool
  sessions : List Session
  fs : FS
  writes : List (String × Bytes × Option Err)
deriving DecidableEq, Repr

/-- The map read `f.Actives[id]`. -/
def lookupActive : List (Int × Nat) → Int → Option Nat
  | [], _ => none
  | (k, c) :: rest, id => if k = id then some c else lookupActive rest id

/-- The map update `delete(f.Actives, id)`. -/
def deleteActive (m : List (Int × Nat)) (id : Int) : List (Int × Nat) :=
  m.filter (fun p => decide (p.1 ≠ id))

/-- The channel send `c <- e` on the channel of index `c`. -/
def send : List Session → Nat → fileDumpEntity → List Session
  | [], _, _ => []
  | w :: rest, 0, e => { w with chan := w.chan ++ [e] } :: rest
  | w :: rest, c + 1, e => w :: send rest c e

/-- The method `InitDump(id)`: two empty buffers, a new channel registered
under `id` (replacing a registration of `id`), a new worker. `none`: the call
waits for the lock for ever. -/
def FileDump.InitDump (f : FileDump) (id : Int) : Option (FileDump × Option Err) :=
  if f.locked then none
  else
    some ({ f with
      Actives := (id, f.sessions.length) :: deleteActive f.Actives id
      sessions := f.sessions ++ [⟨id, [], 0, [], [], false⟩] }, none)

/-- The method `WriteRequest(id, data)`; the result is `(n, err)`. The command
it sends holds the slice `data` of the caller, which is not copied here: the
worker copies its bytes when it receives the command, and until then they are
what the caller leaves in the slice (`FileDump.overwrite`). -/
def FileDump.WriteRequest (f : FileDump) (id : Int) (data : Bytes) :
    Option (FileDump × Int × Option Err) :=
  if f.locked then none
  else
    match lookupActive f.Actives id with
    | some c =>
      some ({ f with sessions := send f.sessions c ⟨data, DumpOrderWrite, DumpRequestEntity⟩ },
        data.length, none)
    | none => some (f, data.length, none)

/-- The method `WriteResponse(id, data)`; the result is `(n, err)`. As in
`WriteRequest`, the command holds the slice of the caller, not a copy. -/
def FileDump.WriteResponse (f : FileDump) (id : Int) (data : Bytes) :
    Option (FileDump × Int × Option Err) :=
  if f.locked then none
  else
    match lookupActive f.Actives id with
    | some c =>
      some ({ f with sessions := send f.sessions c ⟨data, DumpOrderWrite, DumpResponseEntity⟩ },
        data.length, none)
    | none => some (f, data.length, none)

/-- The method `ReadRequest(id)` (it takes no lock); `statFault` and
`readFault` are the errors the system makes `os.Stat` and `ioutil.ReadFile`
fail with, if any. -/
def FileDump.ReadRequest (f : FileDump) (id : Int) (statFault readFault : Option Err) :
    Except Err Bytes :=
  let file := requestFile id
  let err := Stat f.fs file statFault
  if IsNotExist err then Except.ok []
  else ReadFile f.fs file readFault

/-- The method `ReadResponse(id)` (it takes no lock); `statFault` and
`readFault` are the errors the system makes `os.Stat` and `ioutil.ReadFile`
fail with, if any. -/
def FileDump.ReadResponse (f : FileDump) (id : Int) (statFault readFault : Option Err) :
    Except Err Bytes :=
  let file := responseFile id
  let err := Stat f.fs file statFault
  if IsNotExist err then Except.ok []
  else ReadFile f.fs file readFault

/-- The method `Complete(id)`: when `id` is registered, it is deleted from the
map and one close command is sent on its channel. -/
def FileDump.Complete (f : FileDump) (id : Int) : Option (FileDump × Option Err) :=
  if f.locked then none
  else
    match lookupActive f.Actives id with
    | some c =>
      some ({ f with
        Actives := deleteActive f.Actives id
        sessions := send f.sessions c closeCmd }, none)
    | none => some (f, none)

/-- The loop `for k := range f.Actives` of `Clear`: a close command on the
channel of every key. -/
def closeAll (m : List (Int × Nat)) (keys : List Int) (ss : List Session) : List Session :=
  keys.foldl (fun acc k =>
    match lookupActive m k with
    | some c => send acc c closeCmd
    | none => acc) ss

/-- The method `Clear()`; `rmFault` and `mkFault` are the errors the system
makes `os.RemoveAll` and `os.Mkdir` fail with, if any. The lock is taken on
entry and released by the last statement only: the two error returns leave it
held. -/
def FileDump.Clear (f : FileDump) (rmFault mkFault : Option Err) :
    Option (FileDump × Option Err) :=
  if f.locked then none
  else
    let f1 : FileDump := { f with
      locked := true
      sessions := closeAll f.Actives (f.Actives.map Prod.fst) f.sessions
      Actives := [] }
    let err := StatDir f1.fs
    let r1 : FS × Option Err :=
      if !IsNotExist err then RemoveAll f1.fs rmFault else (f1.fs, none)
    match r1.2 with
    | some e => some ({ f1 with fs := r1.1 }, some e)
    | none =>
      let r2 := Mkdir r1.1 mkFault
      match r2.2 with
      | some e => some ({ f1 with fs := r2.1 }, some e)
      | none => some ({ f1 with fs := r2.1, locked := false }, none)

/-- The `DumpOrderClose` branch of the worker: the request buffer and then the
response buffer are written to their files, the errors being logged only;
`f1` and `f2` are the errors the system makes the two writes fail with. -/
def flush (f : FileDump) (id : Int) (reqBuf respBuf : Bytes) (f1 f2 : Option Err) :
    FileDump :=
  let r1 := WriteFile f.fs (requestFile id) reqBuf f1
  let r2 := WriteFile r1.1 (responseFile id) respBuf f2
  { f with
    fs := r2.1
    writes := f.writes ++ [(requestFile id, reqBuf, r1.2), (responseFile id, respBuf, r2.2)] }

/-- One turn of the loop of the worker of session `k`: it receives its next
command and handles it. `none`: the worker has returned, or waits on an empty
channel. -/
def workerStep (f : FileDump) (k : Nat) (f1 f2 : Option Err) : Option FileDump :=
  match f.sessions[k]? with
  | none => none
  | some w =>
    if w.returned then none
    else
      match w.chan[w.recv]? with
      | none => none
      | some data =>
        if data.order = DumpOrderWrite then
          if data.entityType = DumpRequestEntity then
            let w1 : Session := { w with recv := w.recv + 1, reqBuf := w.reqBuf ++ data.data }
            some { f with sessions := f.sessions.set k w1 }
          else if data.entityType = DumpResponseEntity then
            let w1 : Session := { w with recv := w.recv + 1, respBuf := w.respBuf ++ data.data }
            some { f with sessions := f.sessions.set k w1 }
          else some { f with sessions := f.sessions.set k { w with recv := w.recv + 1 } }
        else if data.order = DumpOrderClose then
          let g := flush f w.id w.reqBuf w.respBuf f1 f2
          let w1 : Session := { w with recv := w.recv + 1, returned := true }
          some { g with sessions := g.sessions.set k w1 }
        else some { f with sessions := f.sessions.set k { w with recv := w.recv + 1 } }

/-- A store of the caller into the slice it passed to `WriteRequest` or
`WriteResponse` as command `i` of channel `k`: the slice then holds `data`, of
the same length. The command holds that very slice, so a worker that has yet
to receive it will copy `data`; a worker that has received it has made its
copy (`reqBuf.Write`, `respBuf.Write`) and nothing changes. A store into
memory that several queued slices share is one such step for each of them.
`none`: there is no such slice. -/
def FileDump.overwrite (f : FileDump) (k i : Nat) (data : Bytes) : Option FileDump :=
  match f.sessions[k]? with
  | none => none
  | some w =>
    match w.chan[i]? with
    | none => none
    | some c =>
      if c.order = DumpOrderWrite ∧ c.data.length = data.length then
        if i < w.recv then some f
        else
          let w1 : Session := { w with chan := w.chan.set i ⟨data, c.order, c.entityType⟩ }
          some { f with sessions := f.sessions.set k w1 }
      else none

/-- A step of the capture pipeline: a method call, a worker handling its next
command, or the caller storing into a slice it has passed to a write. -/
inductive Event where
  | InitDump (id : Int)
  | WriteRequest (id : Int) (data : Bytes)
  | WriteResponse (id : Int) (data : Bytes)
  | Complete (id : Int)
  | Clear (rmFault mkFault : Option Err)
  | work (k : Nat) (f1 f2 : Option Err)
  | overwrite (k i : Nat) (data : Bytes)

/-- The effect of a step; `none` when it cannot be taken. -/
def FileDump.step (f : FileDump) : Event → Option FileDump
  | Event.InitDump id => (f.InitDump id).map Prod.fst
  | Event.WriteRequest id data => (f.WriteRequest id data).map Prod.fst
  | Event.WriteResponse id data => (f.WriteResponse id data).map Prod.fst
  | Event.Complete id => (f.Complete id).map Prod.fst
  | Event.Clear rmFault mkFault => (f.Clear rmFault mkFault).map Prod.fst
  | Event.work k f1 f2 => workerStep f k f1 f2
  | Event.overwrite k i data => f.overwrite k i data

/-- Steps taken one after the other. -/
def FileDump.run : FileDump → List Event → Option FileDump
  | f, [] => some f
  | f, e :: rest =>
    match f.step e with
    | none => none
    | some g => g.run rest

/-- The payloads of the request writes among a list of steps, concatenated in
order. -/
def requestBytes (id : Int) : List Event → Bytes
  | [] => []
  | Event.WriteRequest i data :: rest =>
    if i = id then data ++ requestBytes id rest else requestBytes id rest
  | _ :: rest => requestBytes id rest

/-- The payloads of the response writes among a list of steps, concatenated in
order. -/
def responseBytes (id : Int) : List Event → Bytes
  | [] => []
  | Event.WriteResponse i data :: rest =>
    if i = id then data ++ responseBytes id rest else responseBytes id rest
  | _ :: rest => responseBytes id rest

/-- The request payloads among a list of commands, concatenated in order. -/
def reqOf : List fileDumpEntity → Bytes
  | [] => []
  | c :: rest =>
    if c.order = DumpOrderWrite ∧ c.entityType = DumpRequestEntity then c.data ++ reqOf rest
    else reqOf rest

/-- The response payloads among a list of commands, concatenated in order. -/
def respOf : List fileDumpEntity → Bytes
  | [] => []
  | c :: rest =>
    if c.order = DumpOrderWrite ∧ c.entityType = DumpResponseEntity then c.data ++ respOf rest
    else respOf rest

/-- Whether a step belongs to the session of `id` on channel `k` while it
accumulates: a write for `id`, a turn of the worker of `k`, or a store of the
caller into a slice it passed on channel `k`. -/
def sessionEvent (id : Int) (k : Nat) : Event → Bool
  | Event.WriteRequest i _ => decide (i = id)
  | Event.WriteResponse i _ => decide (i = id)
  | Event.work j _ _ => decide (j = k)
  | Event.overwrite j _ _ => decide (j = k)
  | _ => false

/-- Whether a step leaves the slices of the queued commands as they are: every
step does, but a store into a slice whose command the worker has yet to
receive. -/
def keepsQueued (f : FileDump) : Event → Bool
  | Event.overwrite k i _ =>
    match f.sessions[k]? with
    | some w => decide (i < w.recv)
    | none => true
  | _ => true

/-- Whether every step of a run leaves the slices of the queued commands as
they are. -/
def keepsQueuedRun : FileDump → List Event → Bool
  | _, [] => true
  | f, e :: rest =>
    keepsQueued f e &&
      match f.step e with
      | some g => keepsQueuedRun g rest
      | none => true

/-- The session `w` of `id` on channel `k` is accumulating: `id` is registered
with `k`, the worker has not returned, only write commands were sent, and the
buffers hold the payloads of the commands received so far. -/
def Accumulating (g : FileDump) (id : Int) (k : Nat) (w : Session) : Prop :=
  g.locked = false ∧ lookupActive g.Actives id = some k ∧ g.sessions[k]? = some w ∧
  w.id = id ∧ w.returned = false ∧ w.recv ≤ w.chan.length ∧
  w.reqBuf = reqOf (w.chan.take w.recv) ∧ w.respBuf = respOf (w.chan.take w.recv) ∧
  ∀ c ∈ w.chan, c.order = DumpOrderWrite

/-- The value `&FileDump{Actives: make(map[int64]chan *fileDumpEntity)}` that
`init` makes, over an artifact directory in the state `fs`. -/
def NewFileDump (fs : FS) : FileDump := ⟨[], false, [], fs, []⟩

/-- An append command: a write command for the request or the response
buffer. -/
def isAppend (c : fileDumpEntity) : Prop :=
  c.order = DumpOrderWrite ∧
    (c.entityType = DumpRequestEntity ∨ c.entityType = DumpResponseEntity)

/-- The channel of a session holds append commands and then at most one close
command, which is the last; a registered session has been sent no close
command; the worker has returned exactly when it has received the close
command, and until then it has received append commands only. -/
def ChannelOK (registered : Prop) (w : Session) : Prop :=
  ∃ cs, (∀ c ∈ cs, isAppend c) ∧
    ((w.chan = cs ∧ w.returned = false ∧ w.recv ≤ cs.length) ∨
      (¬ registered ∧ w.chan = cs ++ [closeCmd] ∧
        ((w.returned = false ∧ w.recv ≤ cs.length) ∨
          (w.returned = true ∧ w.recv = cs.length + 1))))

/-- The invariant of the capture registry: the map has one entry per key, no
channel is registered twice, every registered channel exists, and every
channel is in order. -/
def RegistryOK (f : FileDump) : Prop :=
  (f.Actives.map Prod.fst).Nodup ∧ (f.Actives.map Prod.snd).Nodup ∧
    (∀ p ∈ f.Actives, p.2 < f.sessions.length) ∧
    ∀ k w, f.sessions[k]? = some w → ChannelOK (k ∈ f.Actives.map Prod.snd) w

/-- A close command sent on each channel of a list. -/
def sendAll (cs : List Nat) (ss : List Session) : List Session :=
  cs.foldl (fun acc c => send acc c closeCmd) ss

end shuttle

namespace dns

variable {α : Type}

/-! ## Slots and keys -/

theorem swapL_length (l : List (CacheEntity α)) (i j : Nat) :
    (swapL l i j).length = l.length := by
  unfold swapL
  split <;> simp

theorem swapL_getElem? (l : List (CacheEntity α)) (i j k : Nat)
    (hi : i < l.length) (hj : j < l.length) :
    (swapL l i j)[k]? = if k = j then l[i]? else if k = i then l[j]? else l[k]? := by
  unfold swapL
  rw [List.getElem?_eq_getElem hi, List.getElem?_eq_getElem hj]
  simp only [List.getElem?_set]
  by_cases h1 : j = k
  · subst h1; simp [hi, hj]
  · by_cases h2 : i = k
    · subst h2; simp [h1, hi, hj, Ne.symm h1]
    · simp [h1, h2, Ne.symm h1, Ne.symm h2]

theorem set_set_perm {β : Type} (l : List β) (i j : Nat) (a b : β)
    (ha : l[i]? = some a) (hb : l[j]? = some b) : ((l.set i b).set j a).Perm l := by
  classical
  obtain ⟨hi, hia⟩ := List.getElem?_eq_some.1 ha
  obtain ⟨hj, hjb⟩ := List.getElem?_eq_some.1 hb
  rw [List.perm_iff_count]
  intro c
  have hj2 : j < (l.set i b).length := by simpa using hj
  rw [List.count_set _ _ _ _ hj2, List.count_set _ _ _ _ hi]
  have hget : (l.set i b)[j] = b := by
    rw [List.getElem_set]
    split
    · rfl
    · exact hjb
  rw [hget, hia]
  have h1 := List.boole_getElem_le_count c l i hi
  rw [hia] at h1
  by_cases h : (a == c) = true <;> by_cases h2 : (b == c) = true <;>
    simp only [h, h2, if_true, if_false] at h1 ⊢ <;> omega

theorem swapL_perm (l : List (CacheEntity α)) (i j : Nat) :
    (swapL l i j).Perm l := by
  unfold swapL
  split
  · rename_i a b ha hb
    exact set_set_perm l i j a b ha hb
  · exact List.Perm.refl l

theorem keyD_swapL (l : List (CacheEntity α)) (i j : Nat)
    (hi : i < l.length) (hj : j < l.length) :
    keyD (swapL l i j) = swapF (keyD l) i j := by
  funext k
  simp only [keyD, swapF, swapL_getElem? l i j k hi hj]
  by_cases h1 : k = j
  · subst h1
    by_cases h2 : k = i
    · subst h2; simp
    · simp [h2]
  · by_cases h2 : k = i
    · subst h2; simp [h1]
    · simp [h1, h2]

/-! ## The heap order while sifting -/

theorem swapF_same (f : Nat → Int) (i j : Nat) : swapF f i j i = f j := by
  simp [swapF]

theorem swapF_other (f : Nat → Int) (i j : Nat) : swapF f i j j = f i := by
  unfold swapF
  by_cases h : j = i
  · subst h; simp
  · simp [h]

theorem swapF_ne (f : Nat → Int) (i j k : Nat) (h1 : k ≠ i) (h2 : k ≠ j) :
    swapF f i j k = f k := by
  simp [swapF, h1, h2]

theorem upHole_done {f : Nat → Int} {n j : Nat} (h : UpHole f n j)
    (hj : j = 0 ∨ f ((j - 1) / 2) ≤ f j) : HeapKeys f n := by
  intro k hk0 hkn
  by_cases hkj : k = j
  · subst hkj
    rcases hj with hj | hj
    · omega
    · exact hj
  · exact h.1 k hk0 hkn hkj

theorem upHole_step {f : Nat → Int} {n j : Nat} (h : UpHole f n j)
    (hj0 : 0 < j) (hjn : j < n) (hlt : f j < f ((j - 1) / 2)) :
    UpHole (swapF f ((j - 1) / 2) j) n ((j - 1) / 2) := by
  have hij : (j - 1) / 2 ≠ j := by omega
  constructor
  · intro k hk0 hkn hki
    by_cases hkj : k = j
    · subst hkj
      rw [swapF_same, swapF_other]
      exact le_of_lt hlt
    · rw [swapF_ne f _ _ k hki hkj]
      by_cases hp1 : (k - 1) / 2 = j
      · rw [hp1, swapF_other]
        exact h.2 k hk0 hkn hp1 hj0
      · by_cases hp2 : (k - 1) / 2 = (j - 1) / 2
        · rw [hp2, swapF_same]
          have := h.1 k hk0 hkn hkj
          rw [hp2] at this
          omega
        · rw [swapF_ne f _ _ _ hp2 hp1]
          exact h.1 k hk0 hkn hkj
  · intro k hk0 hkn hpk hi0
    have hii : ((j - 1) / 2 - 1) / 2 ≠ (j - 1) / 2 := by omega
    have hij2 : ((j - 1) / 2 - 1) / 2 ≠ j := by omega
    rw [swapF_ne f _ _ _ hii hij2]
    have hpi := h.1 ((j - 1) / 2) hi0 (by omega) hij
    by_cases hkj : k = j
    · subst hkj
      rw [swapF_other]
      exact hpi
    · have hki : k ≠ (j - 1) / 2 := by omega
      rw [swapF_ne f _ _ k hki hkj]
      have := h.1 k hk0 hkn hkj
      rw [hpk] at this
      omega

theorem downHole_done {f : Nat → Int} {n i : Nat} (h : DownHole f n i)
    (hc : ∀ k, 0 < k → k < n → (k - 1) / 2 = i → f i ≤ f k) : HeapKeys f n := by
  intro k hk0 hkn
  by_cases hp : (k - 1) / 2 = i
  · rw [hp]; exact hc k hk0 hkn hp
  · exact h.1 k hk0 hkn hp

theorem downHole_step {f : Nat → Int} {n i j : Nat} (h : DownHole f n i)
    (hj0 : 0 < j) (hjn : j < n) (hpar : (j - 1) / 2 = i)
    (hmin : ∀ k, 0 < k → k < n → (k - 1) / 2 = i → f j ≤ f k)
    (hlt : f j < f i) : DownHole (swapF f i j) n j := by
  have hij : i ≠ j := by omega
  constructor
  · intro k hk0 hkn hpk
    by_cases hkj : k = j
    · subst hkj
      rw [hpar, swapF_same, swapF_other]
      exact le_of_lt hlt
    · by_cases hki : k = i
      · subst hki
        have h1 : (k - 1) / 2 ≠ k := by omega
        rw [swapF_same, swapF_ne f _ _ _ h1 hpk]
        exact h.2 j hj0 hjn hpar hk0
      · rw [swapF_ne f _ _ k hki hkj]
        by_cases hp2 : (k - 1) / 2 = i
        · rw [hp2, swapF_same]
          exact hmin k hk0 hkn hp2
        · rw [swapF_ne f _ _ _ hp2 hpk]
          exact h.1 k hk0 hkn hp2
  · intro k hk0 hkn hpk _
    rw [hpar, swapF_same]
    have hki : k ≠ i := by omega
    have hkj : k ≠ j := by omega
    rw [swapF_ne f _ _ k hki hkj]
    have := h.1 k hk0 hkn (by omega)
    rw [hpk] at this
    exact this

/-! ## The pool methods at indices in range -/

theorem goDiv2_pred (j : Nat) : goDiv2 ((j : Int) - 1) = (((j - 1) / 2 : Nat) : Int) := by
  cases j with
  | zero => decide
  | succ m =>
    have h : ((m + 1 : Nat) : Int) - 1 = (m : Int) := by omega
    rw [h, Nat.add_sub_cancel]
    unfold goDiv2
    exact (Int.ofNat_tdiv m 2).symm

theorem idx_cast (c : CachePool α) (i : Int) (x : Nat) (hx : i = x) :
    c.idx i = c.list[x]? := by
  subst hx
  simp [CachePool.idx]

theorem Less_cast (c : CachePool α) (i j : Int) (x y : Nat) (hx : i = x) (hy : j = y)
    (hxl : x < c.list.length) (hyl : y < c.list.length) :
    c.Less i j = some (decide (keyD c.list x < keyD c.list y)) := by
  unfold CachePool.Less
  rw [idx_cast c i x hx, idx_cast c j y hy]
  simp only [keyD, List.getElem?_eq_getElem hxl, List.getElem?_eq_getElem hyl]

theorem Swap_cast (c : CachePool α) (i j : Int) (x y : Nat) (hx : i = x) (hy : j = y)
    (hxl : x < c.list.length) (hyl : y < c.list.length) :
    c.Swap i j = ⟨swapL c.list x y⟩ := by
  subst hx hy
  unfold CachePool.Swap swapL
  have hg : ¬ (((c.list.length : Nat) : Int) = 0 ∨ (x : Int) < 0 ∨ (y : Int) < 0 ∨
      (x : Int) ≥ ((c.list.length : Nat) : Int) ∨ (y : Int) ≥ ((c.list.length : Nat) : Int)) := by
    omega
  simp only [hg, if_false, Int.toNat_ofNat]
  rw [List.getElem?_eq_getElem hxl, List.getElem?_eq_getElem hyl]

/-! ## `heap.up` and `heap.down` -/

theorem up_spec (fuel : Nat) : ∀ (h : CachePool α) (j : Nat), j < h.list.length → j < fuel →
    ∃ h1, up fuel h (j : Int) = some h1 ∧ h1.list.length = h.list.length ∧
      h1.list.Perm h.list ∧
      (UpHole (keyD h.list) h.list.length j → HeapKeys (keyD h1.list) h.list.length) := by
  induction fuel with
  | zero => intro h j _ hf; omega
  | succ fuel ih =>
    intro h j hjl hjf
    unfold up
    simp only [goDiv2_pred]
    by_cases hj0 : j = 0
    · subst hj0
      refine ⟨h, by simp, rfl, List.Perm.refl _, fun hh => upHole_done hh (Or.inl rfl)⟩
    · have hne : ¬ ((((j - 1) / 2 : Nat) : Int) = (j : Int)) := by omega
      have hpl : (j - 1) / 2 < h.list.length := by omega
      rw [if_neg hne, Less_cast h _ _ j ((j - 1) / 2) rfl rfl hjl hpl]
      by_cases hlt : keyD h.list j < keyD h.list ((j - 1) / 2)
      · simp only [hlt, decide_True]
        rw [Swap_cast h _ _ ((j - 1) / 2) j rfl rfl hpl hjl]
        obtain ⟨h1, he, hlen, hperm, hheap⟩ :=
          ih ⟨swapL h.list ((j - 1) / 2) j⟩ ((j - 1) / 2)
            (by simp only [swapL_length]; omega) (by omega)
        simp only [swapL_length] at hlen hheap
        refine ⟨h1, he, hlen, hperm.trans (swapL_perm _ _ _), fun hh => ?_⟩
        apply hheap
        rw [keyD_swapL h.list _ _ hpl hjl]
        exact upHole_step hh (by omega) hjl hlt
      · simp only [hlt, decide_False]
        exact ⟨h, rfl, rfl, List.Perm.refl _, fun hh => upHole_done hh (Or.inr (not_lt.1 hlt))⟩

theorem down_spec (fuel : Nat) : ∀ (h : CachePool α) (i n : Nat),
    n ≤ h.list.length → 0 < fuel → n < fuel + i →
    ∃ h1, down fuel h (i : Int) (n : Int) = some h1 ∧ h1.list.length = h.list.length ∧
      h1.list.Perm h.list ∧ (∀ k, n ≤ k → h1.list[k]? = h.list[k]?) ∧
      (DownHole (keyD h.list) n i → HeapKeys (keyD h1.list) n) := by
  induction fuel with
  | zero => intro h i n _ hf; omega
  | succ fuel ih =>
    intro h i n hnl _ hf
    unfold down
    by_cases hleaf : n ≤ 2 * i + 1
    · have hc : (2 * (i : Int) + 1 ≥ (n : Int) ∨ 2 * (i : Int) + 1 < 0) := by omega
      simp only [hc, if_true]
      refine ⟨h, rfl, rfl, List.Perm.refl _, fun _ _ => rfl, fun hh => downHole_done hh ?_⟩
      intro k hk0 hkn hp
      omega
    · have hc : ¬ (2 * (i : Int) + 1 ≥ (n : Int) ∨ 2 * (i : Int) + 1 < 0) := by omega
      rw [if_neg hc]
      have hil : i < h.list.length := by omega
      -- the continuation once the smaller child `j` is picked
      have tail : ∀ j : Nat, j < n → (j - 1) / 2 = i → 0 < j →
          (∀ k, 0 < k → k < n → (k - 1) / 2 = i → keyD h.list j ≤ keyD h.list k) →
          ∃ h1, (match h.Less (j : Int) (i : Int) with
              | none => none
              | some false => some h
              | some true => down fuel (h.Swap (i : Int) (j : Int)) (j : Int) (n : Int)) = some h1 ∧
            h1.list.length = h.list.length ∧ h1.list.Perm h.list ∧
            (∀ k, n ≤ k → h1.list[k]? = h.list[k]?) ∧
            (DownHole (keyD h.list) n i → HeapKeys (keyD h1.list) n) := by
        intro j hjn hpar hj0 hmin
        have hjl : j < h.list.length := by omega
        rw [Less_cast h _ _ j i rfl rfl hjl hil]
        by_cases hlt : keyD h.list j < keyD h.list i
        · simp only [hlt, decide_True]
          rw [Swap_cast h _ _ i j rfl rfl hil hjl]
          obtain ⟨h1, he, hlen, hperm, hframe, hheap⟩ :=
            ih ⟨swapL h.list i j⟩ j n (by simp only [swapL_length]; exact hnl) (by omega) (by omega)
          simp only [swapL_length] at hlen
          refine ⟨h1, he, hlen, hperm.trans (swapL_perm _ _ _), ?_, fun hh => ?_⟩
          · intro k hk
            rw [hframe k hk, swapL_getElem? h.list i j k hil hjl]
            have h1 : k ≠ j := by omega
            have h2 : k ≠ i := by omega
            simp [h1, h2]
          · apply hheap
            show DownHole (keyD (swapL h.list i j)) n j
            rw [keyD_swapL h.list _ _ hil hjl]
            exact downHole_step hh hj0 hjn hpar hmin hlt
        · simp only [hlt, decide_False]
          refine ⟨h, rfl, rfl, List.Perm.refl _, fun _ _ => rfl, fun hh => downHole_done hh ?_⟩
          intro k hk0 hkn hp
          have := hmin k hk0 hkn hp
          omega
      have e1 : 2 * (i : Int) + 1 = ((2 * i + 1 : Nat) : Int) := by push_cast; ring
      have e2 : 2 * (i : Int) + 1 + 1 = ((2 * i + 2 : Nat) : Int) := by push_cast; ring
      have h1l : 2 * i + 1 < h.list.length := by omega
      dsimp only
      by_cases hr : 2 * i + 2 < n
      · have hc2 : 2 * (i : Int) + 1 + 1 < (n : Int) := by omega
        have h2l : 2 * i + 2 < h.list.length := by omega
        rw [if_pos hc2, Less_cast h _ _ (2 * i + 2) (2 * i + 1) e2 e1 h2l h1l]
        by_cases hlt : keyD h.list (2 * i + 2) < keyD h.list (2 * i + 1)
        · simp only [hlt, decide_True, e2]
          apply tail (2 * i + 2) hr (by omega) (by omega)
          intro k hk0 hkn hp
          have hk : k = 2 * i + 1 ∨ k = 2 * i + 2 := by omega
          rcases hk with hk | hk
          · subst hk; exact le_of_lt hlt
          · subst hk; exact le_refl _
        · simp only [hlt, decide_False, e1]
          apply tail (2 * i + 1) (by omega) (by omega) (by omega)
          intro k hk0 hkn hp
          have hk : k = 2 * i + 1 ∨ k = 2 * i + 2 := by omega
          rcases hk with hk | hk
          · subst hk; exact le_refl _
          · subst hk; exact not_lt.1 hlt
      · have hc2 : ¬ (2 * (i : Int) + 1 + 1 < (n : Int)) := by omega
        rw [if_neg hc2]
        simp only [e1]
        apply tail (2 * i + 1) (by omega) (by omega) (by omega)
        intro k hk0 hkn hp
        have hk : k = 2 * i + 1 := by omega
        subst hk; exact le_refl _

/-! ## `heap.Push` and `heap.Pop` -/

theorem keyD_append_left (l : List (CacheEntity α)) (x : CacheEntity α) (k : Nat)
    (hk : k < l.length) : keyD (l ++ [x]) k = keyD l k := by
  simp only [keyD, List.getElem?_append_left hk]

theorem keyD_dropLast (l : List (CacheEntity α)) (k : Nat) (hk : k < l.length - 1) :
    keyD l.dropLast k = keyD l k := by
  simp only [keyD, List.getElem?_dropLast, hk, if_true]

theorem heapPush_spec (h : CachePool α) (x : CacheEntity α) :
    ∃ h1, heapPush h x = some h1 ∧ h1.list.Perm (h.list ++ [x]) ∧
      h1.list.length = h.list.length + 1 ∧
      (HeapKeys (keyD h.list) h.list.length → HeapKeys (keyD h1.list) h1.list.length) := by
  unfold heapPush
  have hlen : (h.Push x).list.length = h.list.length + 1 := by simp [CachePool.Push]
  have hj : (h.Push x).Len - 1 = ((h.list.length : Nat) : Int) := by
    simp only [CachePool.Len, hlen]; omega
  obtain ⟨h1, he, hl, hperm, hheap⟩ :=
    up_spec ((h.Push x).list.length + 1) (h.Push x) h.list.length (by omega) (by omega)
  refine ⟨h1, ?_, hperm, hl.trans hlen, fun hh => ?_⟩
  · simp only [hj]; exact he
  · rw [hl]
    apply hheap
    rw [hlen]
    constructor
    · intro k hk0 hkn hkj
      have h1 := hh k hk0 (by omega)
      show keyD (h.list ++ [x]) ((k - 1) / 2) ≤ keyD (h.list ++ [x]) k
      rw [keyD_append_left h.list x k (by omega),
        keyD_append_left h.list x ((k - 1) / 2) (by omega)]
      exact h1
    · intro k hk0 hkn hp
      omega

theorem heapPop_nil : heapPop (⟨[]⟩ : CachePool α) = some (⟨[]⟩, none) := by
  rfl

theorem heapPop_spec (e : CacheEntity α) (rest : List (CacheEntity α)) :
    ∃ h1, heapPop ⟨e :: rest⟩ = some (h1, some e) ∧ (e :: h1.list).Perm (e :: rest) ∧
      h1.list.length = rest.length ∧
      (HeapKeys (keyD (e :: rest)) (rest.length + 1) → HeapKeys (keyD h1.list) rest.length) := by
  unfold heapPop
  have hn : (⟨e :: rest⟩ : CachePool α).Len - 1 = ((rest.length : Nat) : Int) := by
    simp only [CachePool.Len, List.length_cons]; omega
  have h0 : (0 : Int) = ((0 : Nat) : Int) := rfl
  have hsw : (⟨e :: rest⟩ : CachePool α).Swap 0 ((rest.length : Nat) : Int) =
      ⟨swapL (e :: rest) 0 rest.length⟩ :=
    Swap_cast _ _ _ 0 rest.length h0 rfl (by simp) (by simp)
  simp only [hn, hsw]
  obtain ⟨h2, he, hl, hperm, hframe, hheap⟩ :=
    down_spec ((swapL (e :: rest) 0 rest.length).length + 1) ⟨swapL (e :: rest) 0 rest.length⟩
      0 rest.length (by simp [swapL_length]) (by omega) (by simp only [swapL_length, List.length_cons]; omega)
  simp only [swapL_length, List.length_cons] at hl
  rw [h0, he]
  have hlast : h2.list.getLast? = some e := by
    rw [List.getLast?_eq_getElem?, hl, Nat.add_sub_cancel, hframe _ (le_refl _),
      swapL_getElem? (e :: rest) 0 rest.length rest.length (by simp) (by simp)]
    simp
  have hsplit : h2.list.dropLast ++ [e] = h2.list :=
    List.dropLast_append_getLast? e hlast
  have hpop : h2.Pop = (⟨h2.list.dropLast⟩, some e) := by
    unfold CachePool.Pop
    have : ¬ h2.list.length = 0 := by omega
    rw [if_neg this, hlast]
  refine ⟨⟨h2.list.dropLast⟩, by simp only [hpop], ?_, by simp [hl], fun hh => ?_⟩
  · have h3 : (e :: h2.list.dropLast).Perm (h2.list.dropLast ++ [e]) :=
      (List.perm_append_singleton e h2.list.dropLast).symm
    rw [hsplit] at h3
    exact h3.trans (hperm.trans (swapL_perm _ _ _))
  · have hdown : HeapKeys (keyD h2.list) rest.length := by
      apply hheap
      show DownHole (keyD (swapL (e :: rest) 0 rest.length)) rest.length 0
      rw [keyD_swapL (e :: rest) 0 rest.length (by simp) (by simp)]
      constructor
      · intro k hk0 hkn hp
        have h1 : k ≠ 0 := by omega
        have h2 : k ≠ rest.length := by omega
        have h4 : (k - 1) / 2 ≠ rest.length := by omega
        rw [swapF_ne _ _ _ _ hp h4, swapF_ne _ _ _ _ h1 h2]
        exact hh k hk0 (by omega)
      · intro k _ _ _ h00
        omega
    intro k hk0 hkn
    rw [keyD_dropLast h2.list k (by omega), keyD_dropLast h2.list _ (by omega)]
    exact hdown k hk0 hkn

theorem heapInv_of_heapKeys (c : CachePool α)
    (h : HeapKeys (keyD c.list) c.list.length) : HeapInv c := by
  intro i a ha
  have hi : keyD c.list i = a.expires := by simp only [keyD, ha]
  constructor
  · intro b hb
    have hlt : 2 * i + 1 < c.list.length := (List.getElem?_eq_some.1 hb).1
    have hk := h (2 * i + 1) (by omega) hlt
    have hp : (2 * i + 1 - 1) / 2 = i := by omega
    rw [hp, hi] at hk
    simpa only [keyD, hb] using hk
  · intro b hb
    have hlt : 2 * i + 2 < c.list.length := (List.getElem?_eq_some.1 hb).1
    have hk := h (2 * i + 2) (by omega) hlt
    have hp : (2 * i + 2 - 1) / 2 = i := by omega
    rw [hp, hi] at hk
    simpa only [keyD, hb] using hk

theorem heapPop_total (h : CachePool α) :
    ∃ h1 r, heapPop h = some (h1, r) ∧ h1.list.length = h.list.length - 1 ∧
      r = h.list.head? ∧ (r.toList ++ h1.list).Perm h.list ∧
      (HeapKeys (keyD h.list) h.list.length → HeapKeys (keyD h1.list) h1.list.length) := by
  obtain ⟨l⟩ := h
  cases l with
  | nil =>
    exact ⟨⟨[]⟩, none, heapPop_nil, rfl, rfl, List.Perm.refl _, fun hh => hh⟩
  | cons e rest =>
    obtain ⟨h1, he, hperm, hlen, hheap⟩ := heapPop_spec e rest
    refine ⟨h1, some e, he, by simpa using hlen, rfl, hperm, fun hh => ?_⟩
    rw [hlen]
    exact hheap hh

theorem runOps_heapKeys (ops : List (HeapOp α)) : ∀ h : CachePool α,
    HeapKeys (keyD h.list) h.list.length →
    ∃ p, runOps h ops = some p ∧ HeapKeys (keyD p.list) p.list.length := by
  induction ops with
  | nil => intro h hh; exact ⟨h, rfl, hh⟩
  | cons op ops ih =>
    intro h hh
    cases op with
    | push x =>
      obtain ⟨h1, he, _, _, hheap⟩ := heapPush_spec h x
      obtain ⟨p, hp, hk⟩ := ih h1 (hheap hh)
      exact ⟨p, by simp only [runOps, he, hp], hk⟩
    | pop =>
      obtain ⟨h1, r, he, _, _, _, hheap⟩ := heapPop_total h
      obtain ⟨p, hp, hk⟩ := ih h1 (hheap hh)
      exact ⟨p, by simp only [runOps, he, hp], hk⟩

/-- C1. Heap invariant: every sequence of `heap.Push` and `heap.Pop` calls
runs to completion from the empty pool, and in the pool it reaches every index
`i` holds an expiry no later than the one at `2i+1` and, when `2i+2` is in
range, than the one at `2i+2`. -/
theorem heap_invariant_reachable (ops : List (HeapOp α)) :
    ∃ p : CachePool α, runOps NewCachePool ops = some p ∧
      ∀ i a, p.list[i]? = some a →
        (∀ b, p.list[2 * i + 1]? = some b → a.expires ≤ b.expires) ∧
        (∀ b, p.list[2 * i + 2]? = some b → a.expires ≤ b.expires) := by
  obtain ⟨p, hp, hk⟩ := runOps_heapKeys ops (NewCachePool : CachePool α)
    (by intro k _ hkn; simp [NewCachePool] at hkn)
  exact ⟨p, hp, heapInv_of_heapKeys p hk⟩

/-! ## `refresh` -/

theorem Head_eq_head? (c : CachePool α) : c.Head = c.list.head? := by
  obtain ⟨l⟩ := c
  cases l <;> simp [CachePool.Head]

theorem refreshLoop_spec (now : Int) (fuel : Nat) : ∀ (pool : CachePool α) (wait : Int)
    (e0 : CacheEntity α), pool.Head = some e0 → wait = e0.expires - now →
    pool.list.length < fuel →
    ∃ pool1 wait1 removed, refreshLoop fuel pool now wait = some (pool1, wait1) ∧
      (removed ++ pool1.list).Perm pool.list ∧ (∀ r ∈ removed, r.expires < now) ∧
      (HeapKeys (keyD pool.list) pool.list.length →
        HeapKeys (keyD pool1.list) pool1.list.length) ∧
      ((pool1.list = [] ∧ wait1 < 0) ∨
        (∃ e, pool1.Head = some e ∧ wait1 = e.expires - now ∧ 0 ≤ wait1)) := by
  induction fuel with
  | zero => intro pool wait e0 _ _ hf; omega
  | succ fuel ih =>
    intro pool wait e0 hhead hwait hf
    obtain ⟨l⟩ := pool
    cases l with
    | nil => simp [CachePool.Head] at hhead
    | cons e rest =>
      have he : e = e0 := by simpa [CachePool.Head] using hhead
      subst he
      unfold refreshLoop
      by_cases hneg : wait < 0
      · rw [if_pos hneg]
        obtain ⟨h1, hpop, hperm, hlen, hheap⟩ := heapPop_spec e rest
        simp only [hpop]
        cases hh : h1.Head with
        | none =>
          have hnil : h1.list = [] := by
            rw [Head_eq_head?] at hh
            simpa using hh
          refine ⟨h1, wait, [e], rfl, hperm, ?_, ?_, Or.inl ⟨hnil, hneg⟩⟩
          · intro r hr
            have : r = e := by simpa using hr
            subst this
            omega
          · intro hk
            rw [hlen]
            exact hheap hk
        | some e1 =>
          simp only [List.length_cons] at hf
          obtain ⟨pool1, wait1, removed, hrun, hperm1, hrem, hheap1, hfin⟩ :=
            ih h1 (e1.expires - now) e1 hh rfl (by omega)
          refine ⟨pool1, wait1, e :: removed, hrun, ?_, ?_, ?_, hfin⟩
          · exact (List.Perm.cons e hperm1).trans hperm
          · intro r hr
            rcases List.mem_cons.1 hr with hr | hr
            · subst hr; omega
            · exact hrem r hr
          · intro hk
            apply hheap1
            rw [hlen]
            exact hheap hk
      · rw [if_neg hneg]
        refine ⟨⟨e :: rest⟩, wait, [], rfl, List.Perm.refl _, ?_, fun hk => hk,
          Or.inr ⟨e, hhead, hwait, by omega⟩⟩
        intro r hr
        simp at hr

theorem refresh_nil (t : Timer) (now : Int) :
    (⟨t, ⟨[]⟩⟩ : CacheManager α).refresh now = some ⟨⟨now, -1⟩, ⟨[]⟩⟩ := by
  rfl

theorem refresh_spec (c : CacheManager α) (now : Int) :
    ∃ c1 removed, c.refresh now = some c1 ∧
      (removed ++ c1.pool.list).Perm c.pool.list ∧ (∀ r ∈ removed, r.expires < now) ∧
      (HeapKeys (keyD c.pool.list) c.pool.list.length →
        HeapKeys (keyD c1.pool.list) c1.pool.list.length) ∧
      Armed c1 now := by
  unfold CacheManager.refresh
  cases hh : c.pool.Head with
  | none =>
    have hnil : c.pool.list = [] := by
      rw [Head_eq_head?] at hh
      simpa using hh
    refine ⟨⟨⟨now, -1⟩, c.pool⟩, [], ?_, List.Perm.refl _, ?_, fun hk => hk, rfl,
      Or.inl ⟨hnil, Or.inl rfl⟩⟩
    · simp [Timer.Reset]
    · intro r hr
      simp at hr
  | some e0 =>
    obtain ⟨pool1, wait1, removed, hrun, hperm, hrem, hheap, hfin⟩ :=
      refreshLoop_spec now (c.pool.list.length + 1) c.pool (e0.expires - now) e0 hh rfl
        (by omega)
    simp only [hrun]
    refine ⟨_, removed, rfl, hperm, hrem, hheap, rfl, ?_⟩
    show (_ ∧ _) ∨ _
    rcases hfin with ⟨hnil, hneg⟩ | ⟨e, he, hw, hpos⟩
    · left
      refine ⟨hnil, ?_⟩
      simp only [Timer.Reset]
      by_cases h1 : wait1 < -1
      · right; rw [if_pos h1]
      · left; rw [if_neg h1]; omega
    · right
      refine ⟨e, he, ?_, ?_⟩
      · simp only [Timer.Reset]
        rw [if_neg (by omega)]
        exact hw
      · simp only [Timer.Reset]
        rw [if_neg (by omega)]
        exact hpos

/-! ## Steps of the manager -/

theorem armed_timerAtHead {c : CacheManager α} {now : Int} (h : Armed c now) :
    TimerAtHead c := by
  intro e he
  obtain ⟨hset, hcase⟩ := h
  rcases hcase with ⟨hnil, _⟩ | ⟨e1, he1, hw, hpos⟩
  · rw [Head_eq_head?, hnil] at he
    simp at he
  · rw [he] at he1
    have : e = e1 := by simpa using he1
    subst this
    unfold Timer.deadline
    split <;> omega

theorem Push_spec (c : CacheManager α) (data : α) (ttl now : Int) :
    ∃ c1 removed, c.Push data ttl now = some c1 ∧
      (removed ++ c1.pool.list).Perm (c.pool.list ++ [⟨data, now + ttl⟩]) ∧
      (∀ r ∈ removed, r.expires < now) ∧
      (HeapKeys (keyD c.pool.list) c.pool.list.length →
        HeapKeys (keyD c1.pool.list) c1.pool.list.length) ∧
      Armed c1 now := by
  unfold CacheManager.Push
  obtain ⟨h1, hpush, hperm, _, hheap⟩ := heapPush_spec c.pool ⟨data, now + ttl⟩
  obtain ⟨c1, removed, hrun, hperm1, hrem, hheap1, harm⟩ :=
    refresh_spec (⟨c.timer, h1⟩ : CacheManager α) now
  simp only [hpush]
  exact ⟨c1, removed, hrun, hperm1.trans hperm, hrem, fun hk => hheap1 (hheap hk), harm⟩

theorem fire_spec (c : CacheManager α) (now : Int) :
    ∃ c1 removed, c.fire now = some c1 ∧
      (c.pool.list.head?.toList ++ (removed ++ c1.pool.list)).Perm c.pool.list ∧
      (∀ r ∈ removed, r.expires < now) ∧
      (HeapKeys (keyD c.pool.list) c.pool.list.length →
        HeapKeys (keyD c1.pool.list) c1.pool.list.length) ∧
      Armed c1 now := by
  unfold CacheManager.fire
  obtain ⟨h1, r, hpop, _, hr, hperm, hheap⟩ := heapPop_total c.pool
  obtain ⟨c1, removed, hrun, hperm1, hrem, hheap1, harm⟩ :=
    refresh_spec (⟨c.timer, h1⟩ : CacheManager α) now
  simp only [hpop]
  refine ⟨c1, removed, hrun, ?_, hrem, fun hk => hheap1 (hheap hk), harm⟩
  rw [← hr]
  exact (List.Perm.append_left r.toList hperm1).trans hperm

/-- Every enabled step returns; what it takes out of the pool has expired by
the time of the step, and it leaves the timer targeting the head. -/
theorem step_spec (c : CacheManager α) (st : Step α) (hinv : TimerAtHead c)
    (hen : st.enabled c = true) :
    ∃ c1, c.step st = some c1 ∧ TimerAtHead c1 ∧
      (∀ x ∈ c.pool.list, st.time < x.expires → x ∈ c1.pool.list) ∧
      (∀ data ttl now, st = Step.push data ttl now → 0 ≤ ttl →
        (⟨data, now + ttl⟩ : CacheEntity α) ∈ c1.pool.list) := by
  cases st with
  | push data ttl now =>
    obtain ⟨c1, removed, hrun, hperm, hrem, _, harm⟩ := Push_spec c data ttl now
    refine ⟨c1, hrun, armed_timerAtHead harm, ?_, ?_⟩
    · intro x hx hlive
      have hmem : x ∈ removed ++ c1.pool.list :=
        hperm.mem_iff.2 (List.mem_append_left _ hx)
      rcases List.mem_append.1 hmem with h | h
      · have := hrem x h
        simp only [Step.time] at hlive
        omega
      · exact h
    · intro data1 ttl1 now1 heq httl
      injection heq with h1 h2 h3
      subst h1 h2 h3
      have hmem : (⟨data, now + ttl⟩ : CacheEntity α) ∈ removed ++ c1.pool.list :=
        hperm.mem_iff.2 (List.mem_append_right _ (List.mem_singleton.2 rfl))
      rcases List.mem_append.1 hmem with h | h
      · have := hrem _ h
        simp only at this
        omega
      · exact h
  | fire now =>
    obtain ⟨c1, removed, hrun, hperm, hrem, _, harm⟩ := fire_spec c now
    refine ⟨c1, hrun, armed_timerAtHead harm, ?_, ?_⟩
    · intro x hx hlive
      simp only [Step.time] at hlive
      have hmem := hperm.mem_iff.2 hx
      rcases List.mem_append.1 hmem with h | h
      · -- the entry at index 0: the timer was armed for its expiry
        have hhead : c.pool.Head = some x := by
          rw [Head_eq_head?]
          cases hh : c.pool.list.head? with
          | none => rw [hh] at h; simp at h
          | some y =>
            rw [hh] at h
            have : x = y := by simpa using h
            rw [this]
        have hd := hinv x hhead
        have hready : c.timer.deadline ≤ now := by
          simpa [Step.enabled, Timer.ready] using hen
        omega
      · rcases List.mem_append.1 h with h | h
        · have := hrem x h
          omega
        · exact h
    · intro data ttl now1 heq
      cases heq

theorem run_spec (steps : List (Step α)) : ∀ (c c1 : CacheManager α), TimerAtHead c →
    c.run steps = some c1 →
    TimerAtHead c1 ∧
      ∀ x ∈ c.pool.list, (∀ st ∈ steps, st.time < x.expires) → x ∈ c1.pool.list := by
  induction steps with
  | nil =>
    intro c c1 hinv hrun
    simp only [CacheManager.run, Option.some.injEq] at hrun
    subst hrun
    exact ⟨hinv, fun x hx _ => hx⟩
  | cons st rest ih =>
    intro c c1 hinv hrun
    unfold CacheManager.run at hrun
    by_cases hen : st.enabled c = true
    · rw [if_pos hen] at hrun
      obtain ⟨c2, hstep, hinv2, hkeep, _⟩ := step_spec c st hinv hen
      simp only [hstep] at hrun
      obtain ⟨hinv1, hkeep1⟩ := ih c2 c1 hinv2 hrun
      refine ⟨hinv1, fun x hx hlive => ?_⟩
      apply hkeep1 x (hkeep x hx (hlive st (List.mem_cons_self _ _)))
      intro st1 hst1
      exact hlive st1 (List.mem_cons_of_mem _ hst1)
    · rw [if_neg hen] at hrun
      cases hrun

theorem timerAtHead_new (t0 : Int) : TimerAtHead (NewCacheManager t0 : CacheManager α) := by
  intro e he
  simp [NewCacheManager, NewCachePool, CachePool.Head] at he

/-! ## `Range` -/

theorem scan_none_iff (f : α → Bool) (l : List (CacheEntity α)) :
    CachePool.Range.scan f l = none ↔ ∀ e ∈ l, f e.data = false := by
  induction l with
  | nil => simp [CachePool.Range.scan]
  | cons v rest ih =>
    unfold CachePool.Range.scan
    by_cases hv : f v.data = true
    · simp [hv]
    · simp only [Bool.not_eq_true] at hv
      simp [hv, ih]

theorem scan_first (f : α → Bool) (pre : List (CacheEntity α)) (e : CacheEntity α)
    (post : List (CacheEntity α)) (hpre : ∀ x ∈ pre, f x.data = false)
    (he : f e.data = true) :
    CachePool.Range.scan f (pre ++ e :: post) = some e.data := by
  induction pre with
  | nil => simp [CachePool.Range.scan, he]
  | cons v rest ih =>
    have hv : f v.data = false := hpre v (List.mem_cons_self _ _)
    have hrest : ∀ x ∈ rest, f x.data = false :=
      fun x hx => hpre x (List.mem_cons_of_mem _ hx)
    simp only [List.cons_append, CachePool.Range.scan, hv]
    exact ih hrest

theorem scan_of_mem (f : α → Bool) (l : List (CacheEntity α)) (e : CacheEntity α)
    (he : e ∈ l) (hf : f e.data = true) : CachePool.Range.scan f l ≠ none := by
  intro hnone
  have := (scan_none_iff f l).1 hnone e he
  rw [hf] at this
  cases this

/-- C7. Linear-scan correctness: `Range` (of the manager, which is `Range` of
its pool) leaves the manager and the pool as they were; it returns nil exactly
when no entry's payload satisfies the predicate; and when an entry satisfies
it and none before it in the slice does, it returns that entry's payload,
wherever the entry sits. -/
theorem range_linear_scan (m : CacheManager α) (f : α → Bool) :
    (m.Range f).1 = m ∧ (m.pool.Range f).1 = m.pool ∧
      (m.Range f).2 = (m.pool.Range f).2 ∧
      ((m.pool.Range f).2 = none ↔ ∀ e ∈ m.pool.list, f e.data = false) ∧
      (∀ pre e post, m.pool.list = pre ++ e :: post → (∀ x ∈ pre, f x.data = false) →
        f e.data = true → (m.pool.Range f).2 = some e.data) := by
  refine ⟨rfl, rfl, rfl, scan_none_iff f m.pool.list, ?_⟩
  intro pre e post hl hpre he
  show CachePool.Range.scan f m.pool.list = some e.data
  rw [hl]
  exact scan_first f pre e post hpre he

/-! ## Eviction -/

/-- C2. Eviction never removes a live entry: in an execution of `Push` steps
and timer-fire steps from a new manager (every fire at or after the deadline
the timer was last armed for), an entry pushed at `T` with a TTL `ttl ≥ 0` is
in the pool, and found by `Range` with any predicate it satisfies, as long as
all later steps happen before `T + ttl`. -/
theorem live_entry_retained (t0 : Int) (before after : List (Step α)) (data : α)
    (ttl T : Int) (c c1 : CacheManager α)
    (h0 : (NewCacheManager t0 : CacheManager α).run before = some c)
    (hrun : c.run (Step.push data ttl T :: after) = some c1)
    (httl : 0 ≤ ttl)
    (hlive : ∀ st ∈ after, st.time < T + ttl) :
    (⟨data, T + ttl⟩ : CacheEntity α) ∈ c1.pool.list ∧
      ∀ f : α → Bool, f data = true → (c1.Range f).2 ≠ none := by
  have hinv : TimerAtHead c := (run_spec before _ c (timerAtHead_new t0) h0).1
  unfold CacheManager.run at hrun
  have hen : Step.enabled c (Step.push data ttl T) = true := rfl
  rw [if_pos hen] at hrun
  obtain ⟨c2, hstep, hinv2, _, hnew⟩ := step_spec c (Step.push data ttl T) hinv rfl
  simp only [hstep] at hrun
  have hmem2 := hnew data ttl T rfl httl
  have hmem : (⟨data, T + ttl⟩ : CacheEntity α) ∈ c1.pool.list :=
    (run_spec after c2 c1 hinv2 hrun).2 _ hmem2 hlive
  exact ⟨hmem, fun f hf => scan_of_mem f c1.pool.list _ hmem hf⟩

/-- Witness of C2: an entry pushed at 0 with TTL 100 survives a later push and
the timer fire that evicts that later, shorter-lived entry. -/
theorem live_entry_retained_witness :
    (⟨1, 0 + 100⟩ : CacheEntity Nat) ∈
        (⟨⟨15, 85⟩, ⟨[⟨1, 100⟩]⟩⟩ : CacheManager Nat).pool.list ∧
      ∀ f : Nat → Bool, f 1 = true →
        ((⟨⟨15, 85⟩, ⟨[⟨1, 100⟩]⟩⟩ : CacheManager Nat).Range f).2 ≠ none :=
  live_entry_retained 0 [] [Step.push 2 10 5, Step.fire 15] 1 100 0
    (NewCacheManager 0) ⟨⟨15, 85⟩, ⟨[⟨1, 100⟩]⟩⟩ (by rfl) (by decide) (by decide)
    (by decide)

/-! ## `ResolveDomainByCache` -/

theorem scan_domain_none (domain : String) (l : List (CacheEntity Answer))
    (hmiss : ∀ e ∈ l, e.data.Domain ≠ domain) :
    CachePool.Range.scan (fun answer => decide (answer.Domain = domain)) l = none := by
  rw [scan_none_iff]
  intro e he
  simpa using hmiss e he

/-- C4. The resolver is called only on a miss. When an entry's `Domain` is
the argument and no entry before it in the slice has that `Domain`,
`ResolveDomainByCache` returns that entry's `Answer` with a nil error and
leaves the whole state as it was (the pool, the timer, the list of resolver
calls), whatever the entry's expiry and the current time; when no entry has
that `Domain`, the call returns and the resolver has been called with the
domain. -/
theorem resolve_hit_skips_resolver {ε : Type} (ResolveDomain : String → Except ε Answer)
    (now : Int) (s : Resolver) (domain : String) :
    (∀ pre e post, s.dnsCacheManager.pool.list = pre ++ e :: post →
        (∀ x ∈ pre, x.data.Domain ≠ domain) → e.data.Domain = domain →
        ResolveDomainByCache ResolveDomain now s domain = some (s, Except.ok e.data)) ∧
      ((∀ e ∈ s.dnsCacheManager.pool.list, e.data.Domain ≠ domain) →
        ∃ s1 r, ResolveDomainByCache ResolveDomain now s domain = some (s1, r) ∧
          s1.resolved = s.resolved ++ [domain]) := by
  constructor
  · intro pre e post hl hpre he
    have hscan : CachePool.Range.scan (fun answer => decide (answer.Domain = domain))
        s.dnsCacheManager.pool.list = some e.data := by
      rw [hl]
      apply scan_first
      · intro x hx
        simpa using hpre x hx
      · simpa using he
    simp only [ResolveDomainByCache, CacheManager.Range, CachePool.Range, hscan]
  · intro hmiss
    have hscan := scan_domain_none domain _ hmiss
    simp only [ResolveDomainByCache, CacheManager.Range, CachePool.Range, hscan]
    cases hres : ResolveDomain domain with
    | error err => exact ⟨_, _, rfl, rfl⟩
    | ok answer =>
      obtain ⟨m, _, hpush, _⟩ := Push_spec s.dnsCacheManager answer CacheTTL now
      simp only [hpush]
      exact ⟨_, _, rfl, rfl⟩

/-- Witness of C4: a pool holding `b.com` then `a.com`, the latter expired at
the time of the call; the lookup of `a.com` returns it and calls no resolver,
the lookup of `c.com` calls the resolver. -/
theorem resolve_hit_skips_resolver_witness :
    ResolveDomainByCache (fun d => (Except.ok ⟨d, ["9.9.9.9"]⟩ : Except String Answer)) 50
        ⟨⟨⟨0, 7⟩, ⟨[⟨⟨"b.com", ["2.2.2.2"]⟩, 7⟩, ⟨⟨"a.com", ["1.1.1.1"]⟩, 9⟩]⟩⟩, []⟩ "a.com" =
      some (⟨⟨⟨0, 7⟩, ⟨[⟨⟨"b.com", ["2.2.2.2"]⟩, 7⟩, ⟨⟨"a.com", ["1.1.1.1"]⟩, 9⟩]⟩⟩, []⟩,
        Except.ok ⟨"a.com", ["1.1.1.1"]⟩) :=
  (resolve_hit_skips_resolver (fun d => (Except.ok ⟨d, ["9.9.9.9"]⟩ : Except String Answer)) 50
    ⟨⟨⟨0, 7⟩, ⟨[⟨⟨"b.com", ["2.2.2.2"]⟩, 7⟩, ⟨⟨"a.com", ["1.1.1.1"]⟩, 9⟩]⟩⟩, []⟩ "a.com").1
    [⟨⟨"b.com", ["2.2.2.2"]⟩, 7⟩] ⟨⟨"a.com", ["1.1.1.1"]⟩, 9⟩ [] rfl (by decide) rfl

/-- C5. On a miss where the resolver succeeds with `a` at the instant `now`,
`ResolveDomainByCache` returns `a` with a nil error, the resolver has been
called once more (with the domain), and the pool is the old pool plus exactly
one new entry, holding `a` and expiring at `now` + 10 minutes, minus entries
that had expired before `now`: every old entry with `expires ≥ now` is kept. -/
theorem resolve_miss_inserts {ε : Type} (ResolveDomain : String → Except ε Answer)
    (now : Int) (s : Resolver) (domain : String) (a : Answer)
    (hmiss : ∀ e ∈ s.dnsCacheManager.pool.list, e.data.Domain ≠ domain)
    (hres : ResolveDomain domain = Except.ok a) :
    ∃ s1 removed kept, ResolveDomainByCache ResolveDomain now s domain = some (s1, Except.ok a) ∧
      s1.resolved = s.resolved ++ [domain] ∧
      s1.dnsCacheManager.pool.list.Perm (⟨a, now + 600000000000⟩ :: kept) ∧
      (removed ++ kept).Perm s.dnsCacheManager.pool.list ∧
      (∀ r ∈ removed, r.expires < now) := by
  have hscan := scan_domain_none domain _ hmiss
  obtain ⟨m, removed, hpush, hperm, hrem, _, _⟩ :=
    Push_spec s.dnsCacheManager a CacheTTL now
  have httl : now + CacheTTL = now + 600000000000 := by
    simp only [CacheTTL]; norm_num
  rw [httl] at hperm
  have hnew : (⟨a, now + 600000000000⟩ : CacheEntity Answer) ∈ m.pool.list := by
    have hmem : (⟨a, now + 600000000000⟩ : CacheEntity Answer) ∈ removed ++ m.pool.list :=
      hperm.mem_iff.2 (List.mem_append_right _ (List.mem_singleton.2 rfl))
    rcases List.mem_append.1 hmem with h | h
    · have := hrem _ h
      simp only at this
      omega
    · exact h
  refine ⟨⟨m, s.resolved ++ [domain]⟩, removed,
    m.pool.list.erase ⟨a, now + 600000000000⟩, ?_, rfl, List.perm_cons_erase hnew, ?_, hrem⟩
  · simp only [ResolveDomainByCache, CacheManager.Range, CachePool.Range, hscan, hres, hpush]
  · have h1 : (removed ++ m.pool.list).Perm
        ((⟨a, now + 600000000000⟩ : CacheEntity Answer) ::
          (removed ++ m.pool.list.erase ⟨a, now + 600000000000⟩)) :=
      (List.Perm.append_left removed (List.perm_cons_erase hnew)).trans List.perm_middle
    have h2 : (s.dnsCacheManager.pool.list ++
          [(⟨a, now + 600000000000⟩ : CacheEntity Answer)]).Perm
        (⟨a, now + 600000000000⟩ :: s.dnsCacheManager.pool.list) :=
      List.perm_append_singleton _ _
    exact ((h1.symm.trans hperm).trans h2).cons_inv

/-- Witness of C5: a miss on `a.com` at time 50 over a pool holding an expired
and a live entry for other domains. -/
theorem resolve_miss_inserts_witness :
    ∃ s1 removed kept,
      ResolveDomainByCache (fun d => (Except.ok ⟨d, ["9.9.9.9"]⟩ : Except String Answer)) 50
        ⟨⟨⟨0, 7⟩, ⟨[⟨⟨"b.com", []⟩, 7⟩, ⟨⟨"c.com", []⟩, 90⟩]⟩⟩, []⟩ "a.com" =
          some (s1, Except.ok ⟨"a.com", ["9.9.9.9"]⟩) ∧
      s1.resolved = [] ++ ["a.com"] ∧
      s1.dnsCacheManager.pool.list.Perm
        ((⟨⟨"a.com", ["9.9.9.9"]⟩, 50 + 600000000000⟩ : CacheEntity Answer) :: kept) ∧
      (removed ++ kept).Perm [⟨⟨"b.com", []⟩, 7⟩, ⟨⟨"c.com", []⟩, 90⟩] ∧
      (∀ r ∈ removed, r.expires < 50) :=
  resolve_miss_inserts (fun d => (Except.ok ⟨d, ["9.9.9.9"]⟩ : Except String Answer)) 50
    ⟨⟨⟨0, 7⟩, ⟨[⟨⟨"b.com", []⟩, 7⟩, ⟨⟨"c.com", []⟩, 90⟩]⟩⟩, []⟩ "a.com" ⟨"a.com", ["9.9.9.9"]⟩
    (by decide) rfl

/-- C6. On a miss where the resolver fails, `ResolveDomainByCache` returns a
nil `Answer` with exactly the resolver's error, and the manager (pool and
timer) is as it was: nothing is cached. -/
theorem resolve_failure_propagates {ε : Type} (ResolveDomain : String → Except ε Answer)
    (now : Int) (s : Resolver) (domain : String) (err : ε)
    (hmiss : ∀ e ∈ s.dnsCacheManager.pool.list, e.data.Domain ≠ domain)
    (hres : ResolveDomain domain = Except.error err) :
    ResolveDomainByCache ResolveDomain now s domain =
      some (⟨s.dnsCacheManager, s.resolved ++ [domain]⟩, Except.error err) := by
  have hscan := scan_domain_none domain _ hmiss
  simp only [ResolveDomainByCache, CacheManager.Range, CachePool.Range, hscan, hres]

/-- Witness of C6: a failing resolver over a pool that holds another domain. -/
theorem resolve_failure_propagates_witness :
    ResolveDomainByCache (fun _ => (Except.error "no such host" : Except String Answer)) 50
        ⟨⟨⟨0, 90⟩, ⟨[⟨⟨"c.com", []⟩, 90⟩]⟩⟩, []⟩ "a.com" =
      some (⟨⟨⟨0, 90⟩, ⟨[⟨⟨"c.com", []⟩, 90⟩]⟩⟩, [] ++ ["a.com"]⟩, Except.error "no such host") :=
  resolve_failure_propagates (fun _ => (Except.error "no such host" : Except String Answer)) 50
    ⟨⟨⟨0, 90⟩, ⟨[⟨⟨"c.com", []⟩, 90⟩]⟩⟩, []⟩ "a.com" "no such host" (by decide) rfl

/-! ## The timer over an empty pool -/

/-- Over an empty pool `refresh` resets the timer with `wait = -1`; a timer
reset to a negative duration is ready at once, so the timer-fire step of the
maintenance loop is enabled at the same instant and at every later one, and
taking it (a `heap.Pop` of nothing, then `refresh`) arms the timer with `-1`
again. -/
theorem refresh_empty_rearms_at_once (t : Timer) (now later : Int) (hlater : now ≤ later) :
    ∃ c1 : CacheManager α, (⟨t, ⟨[]⟩⟩ : CacheManager α).refresh now = some c1 ∧
      c1.timer.wait = -1 ∧ c1.pool.list = [] ∧
      Step.enabled c1 (Step.fire later) = true ∧
      c1.run [Step.fire later] = some ⟨⟨later, -1⟩, ⟨[]⟩⟩ := by
  refine ⟨⟨⟨now, -1⟩, ⟨[]⟩⟩, rfl, rfl, rfl, ?_, ?_⟩
  · simp [Step.enabled, Timer.ready, Timer.deadline, hlater]
  · have hen : Step.enabled (⟨⟨now, -1⟩, ⟨[]⟩⟩ : CacheManager α) (Step.fire later) = true := by
      simp [Step.enabled, Timer.ready, Timer.deadline, hlater]
    unfold CacheManager.run
    rw [if_pos hen]
    rfl

/-- C8, evaluated on the code: a manager made at time 0 with nothing cached.
When its ten-minute timer fires, `refresh` resets the timer with `-1`, which
does not disarm it: the maintenance loop takes the next timer-fire step at
that very instant, and the next, each leaving the timer set to `-1` over the
empty pool. The claim has the loop wait for the next `Push` instead. -/
theorem refresh_empty_spins :
    (NewCacheManager 0 : CacheManager Nat).run
        [Step.fire 600000000000, Step.fire 600000000000, Step.fire 600000000000] =
      some ⟨⟨600000000000, -1⟩, ⟨[]⟩⟩ := by
  decide

end dns

namespace shuttle

/-! ## The registry and the channels -/

theorem lookupActive_delete_self (m : List (Int × Nat)) (id : Int) :
    lookupActive (deleteActive m id) id = none := by
  induction m with
  | nil => rfl
  | cons p rest ih =>
    obtain ⟨k, c⟩ := p
    unfold deleteActive at ih ⊢
    by_cases hk : k = id
    · simp only [List.filter, hk, ne_eq, not_true_eq_false, decide_False]
      exact ih
    · simp only [List.filter, hk, ne_eq, not_false_eq_true, decide_True, lookupActive, if_false]
      exact ih

theorem lookupActive_delete_other (m : List (Int × Nat)) (id other : Int)
    (hne : other ≠ id) :
    lookupActive (deleteActive m id) other = lookupActive m other := by
  induction m with
  | nil => rfl
  | cons p rest ih =>
    obtain ⟨k, c⟩ := p
    unfold deleteActive at ih ⊢
    by_cases hk : k = id
    · have hko : ¬ k = other := by rw [hk]; exact fun h => hne h.symm
      simp only [List.filter, hk, ne_eq, not_true_eq_false, decide_False, lookupActive]
      rw [hk] at hko
      rw [if_neg hko]
      exact ih
    · simp only [List.filter, hk, ne_eq, not_false_eq_true, decide_True, lookupActive]
      rw [ih]

theorem send_length (ss : List Session) (k : Nat) (e : fileDumpEntity) :
    (send ss k e).length = ss.length := by
  induction ss generalizing k with
  | nil => rfl
  | cons w rest ih =>
    cases k with
    | zero => rfl
    | succ c => simp [send, ih]

theorem send_getElem?_same (ss : List Session) (k : Nat) (e : fileDumpEntity) (w : Session)
    (hw : ss[k]? = some w) :
    (send ss k e)[k]? = some { w with chan := w.chan ++ [e] } := by
  induction ss generalizing k with
  | nil => simp at hw
  | cons v rest ih =>
    cases k with
    | zero =>
      simp only [List.getElem?_cons_zero, Option.some.injEq] at hw
      subst hw
      simp [send]
    | succ c =>
      simp only [List.getElem?_cons_succ] at hw
      simp only [send, List.getElem?_cons_succ]
      exact ih c hw

theorem send_getElem?_ne (ss : List Session) (k j : Nat) (e : fileDumpEntity)
    (hne : j ≠ k) : (send ss k e)[j]? = ss[j]? := by
  induction ss generalizing k j with
  | nil => rfl
  | cons v rest ih =>
    cases k with
    | zero =>
      cases j with
      | zero => exact absurd rfl hne
      | succ i => simp [send]
    | succ c =>
      cases j with
      | zero => simp [send]
      | succ i =>
        simp only [send, List.getElem?_cons_succ]
        exact ih c i (fun h => hne (by rw [h]))

/-! ## `Complete` -/

/-- C10. `Complete(id)` on a registered id returns nil, removes `id` from the
registry and appends exactly one close command to the channel `id` was
registered with; every other registration, every other channel, the artifact
directory and the lock are as before; a second `Complete(id)` right after it
changes nothing. On an id that is not registered, `Complete(id)` returns nil
and changes nothing. -/
theorem complete_once (f : FileDump) (id : Int) (hlock : f.locked = false) :
    (∀ c, lookupActive f.Actives id = some c →
      ∃ g, f.Complete id = some (g, none) ∧
        lookupActive g.Actives id = none ∧
        (∀ other, other ≠ id → lookupActive g.Actives other = lookupActive f.Actives other) ∧
        (∀ w, f.sessions[c]? = some w →
          g.sessions[c]? = some { w with chan := w.chan ++ [closeCmd] }) ∧
        (∀ j, j ≠ c → g.sessions[j]? = f.sessions[j]?) ∧
        g.sessions.length = f.sessions.length ∧
        g.fs = f.fs ∧ g.writes = f.writes ∧ g.locked = false ∧
        g.Complete id = some (g, none)) ∧
    (lookupActive f.Actives id = none → f.Complete id = some (f, none)) := by
  constructor
  · intro c hc
    refine ⟨{ f with Actives := deleteActive f.Actives id,
                     sessions := send f.sessions c closeCmd }, ?_, ?_, ?_, ?_, ?_, ?_,
      rfl, rfl, hlock, ?_⟩
    · simp only [FileDump.Complete, hlock, hc]
      rfl
    · exact lookupActive_delete_self f.Actives id
    · intro other hne
      exact lookupActive_delete_other f.Actives id other hne
    · intro w hw
      exact send_getElem?_same f.sessions c closeCmd w hw
    · intro j hj
      exact send_getElem?_ne f.sessions c j closeCmd hj
    · exact send_length f.sessions c closeCmd
    · simp only [FileDump.Complete, hlock, lookupActive_delete_self f.Actives id]
      rfl
  · intro hnone
    simp only [FileDump.Complete, hlock, hnone]
    rfl

/-- Witness of C10: two registered sessions, `Complete` of the second. -/
theorem complete_once_witness :
    (∀ c, lookupActive [(4, 1), (3, 0)] 3 = some c →
      ∃ g, (⟨[(4, 1), (3, 0)], false, [⟨3, [], 0, [], [], false⟩, ⟨4, [], 0, [], [], false⟩],
          ⟨true, []⟩, []⟩ : FileDump).Complete 3 = some (g, none) ∧
        lookupActive g.Actives 3 = none ∧
        (∀ other, other ≠ 3 → lookupActive g.Actives other = lookupActive [(4, 1), (3, 0)] other) ∧
        (∀ w, [(⟨3, [], 0, [], [], false⟩ : Session), ⟨4, [], 0, [], [], false⟩][c]? = some w →
          g.sessions[c]? = some { w with chan := w.chan ++ [closeCmd] }) ∧
        (∀ j, j ≠ c → g.sessions[j]? =
          [(⟨3, [], 0, [], [], false⟩ : Session), ⟨4, [], 0, [], [], false⟩][j]?) ∧
        g.sessions.length = 2 ∧
        g.fs = ⟨true, []⟩ ∧ g.writes = [] ∧ g.locked = false ∧
        g.Complete 3 = some (g, none)) ∧
    (lookupActive [(4, 1), (3, 0)] 3 = none →
      (⟨[(4, 1), (3, 0)], false, [⟨3, [], 0, [], [], false⟩, ⟨4, [], 0, [], [], false⟩],
          ⟨true, []⟩, []⟩ : FileDump).Complete 3 =
        some (⟨[(4, 1), (3, 0)], false,
          [⟨3, [], 0, [], [], false⟩, ⟨4, [], 0, [], [], false⟩], ⟨true, []⟩, []⟩, none)) :=
  complete_once ⟨[(4, 1), (3, 0)], false,
    [⟨3, [], 0, [], [], false⟩, ⟨4, [], 0, [], [], false⟩], ⟨true, []⟩, []⟩ 3 rfl

/-! ## One session: accumulation and flush -/

theorem reqOf_append (a b : List fileDumpEntity) : reqOf (a ++ b) = reqOf a ++ reqOf b := by
  induction a with
  | nil => rfl
  | cons c rest ih =>
    show reqOf (c :: (rest ++ b)) = reqOf (c :: rest) ++ reqOf b
    by_cases h : c.order = DumpOrderWrite ∧ c.entityType = DumpRequestEntity
    · simp only [reqOf, if_pos h, ih, List.append_assoc]
    · simp only [reqOf, if_neg h, ih]

theorem respOf_append (a b : List fileDumpEntity) : respOf (a ++ b) = respOf a ++ respOf b := by
  induction a with
  | nil => rfl
  | cons c rest ih =>
    show respOf (c :: (rest ++ b)) = respOf (c :: rest) ++ respOf b
    by_cases h : c.order = DumpOrderWrite ∧ c.entityType = DumpResponseEntity
    · simp only [respOf, if_pos h, ih, List.append_assoc]
    · simp only [respOf, if_neg h, ih]

theorem take_succ_of_getElem? (l : List fileDumpEntity) (n : Nat) (c : fileDumpEntity)
    (h : l[n]? = some c) : l.take (n + 1) = l.take n ++ [c] := by
  rw [List.take_succ, h]
  rfl

theorem requestBytes_cons (id : Int) (e : Event) (rest : List Event) :
    requestBytes id (e :: rest) = requestBytes id [e] ++ requestBytes id rest := by
  cases e <;> simp [requestBytes]
  split <;> simp

theorem responseBytes_cons (id : Int) (e : Event) (rest : List Event) :
    responseBytes id (e :: rest) = responseBytes id [e] ++ responseBytes id rest := by
  cases e <;> simp [responseBytes]
  split <;> simp

/-- A write for the session adds its command to the channel, and nothing else. -/
theorem accumulating_send (g : FileDump) (id : Int) (k : Nat) (w : Session)
    (c : fileDumpEntity) (hacc : Accumulating g id k w) (hc : c.order = DumpOrderWrite) :
    Accumulating { g with sessions := send g.sessions k c } id k
      { w with chan := w.chan ++ [c] } := by
  obtain ⟨hl, hreg, hw, hid, hret, hrecv, hreq, hresp, hall⟩ := hacc
  refine ⟨hl, hreg, send_getElem?_same g.sessions k c w hw, hid, hret, ?_, ?_, ?_, ?_⟩
  · simp only [List.length_append, List.length_singleton]; omega
  · simp only [List.take_append_of_le_length hrecv]; exact hreq
  · simp only [List.take_append_of_le_length hrecv]; exact hresp
  · intro d hd
    rcases List.mem_append.1 hd with h | h
    · exact hall d h
    · rw [List.mem_singleton.1 h]; exact hc

theorem reqOf_single_of_not_write (c : fileDumpEntity) (h : ¬ c.order = DumpOrderWrite) :
    reqOf [c] = [] ∧ respOf [c] = [] := by
  simp [reqOf, respOf, h]

/-- A turn of a worker whose next command is a write: the payload goes to the
buffer the command names (to none when it names neither). -/
theorem workerStep_write (g : FileDump) (k : Nat) (w : Session) (c : fileDumpEntity)
    (f1 f2 : Option Err) (hw : g.sessions[k]? = some w) (hret : w.returned = false)
    (hc : w.chan[w.recv]? = some c) (hord : c.order = DumpOrderWrite) :
    workerStep g k f1 f2 = some { g with
      sessions := g.sessions.set k
                    ⟨w.id, w.chan, w.recv + 1, w.reqBuf ++ reqOf [c], w.respBuf ++ respOf [c],
                      false⟩ } := by
  have hne : ¬ DumpResponseEntity = DumpRequestEntity := by decide
  unfold workerStep
  simp only [hw, hret, hc, hord, if_true, Bool.false_eq_true, if_false]
  by_cases h2 : c.entityType = DumpRequestEntity
  · simp [h2, reqOf, respOf, hord, DumpRequestEntity, DumpResponseEntity]
  · by_cases h3 : c.entityType = DumpResponseEntity
    · simp [h3, hne, reqOf, respOf, hord, DumpRequestEntity, DumpResponseEntity]
    · simp [h2, h3, reqOf, respOf, hord]

/-- A turn of a worker whose next command is the close command: the flush of
its two buffers, after which the worker has returned. -/
theorem workerStep_close (g : FileDump) (k : Nat) (w : Session) (f1 f2 : Option Err)
    (hw : g.sessions[k]? = some w) (hret : w.returned = false)
    (hc : w.chan[w.recv]? = some closeCmd) :
    workerStep g k f1 f2 = some { flush g w.id w.reqBuf w.respBuf f1 f2 with
      sessions := g.sessions.set k ⟨w.id, w.chan, w.recv + 1, w.reqBuf, w.respBuf, true⟩ } := by
  unfold workerStep
  simp only [hw, hret, hc, Bool.false_eq_true, if_false]
  rfl

/-- A turn of the worker of an accumulating session moves one command from
the channel into the buffers. -/
theorem accumulating_work (g g1 : FileDump) (id : Int) (k : Nat) (w : Session)
    (f1 f2 : Option Err) (hacc : Accumulating g id k w)
    (hstep : workerStep g k f1 f2 = some g1) :
    ∃ w1, Accumulating g1 id k w1 ∧ w1.chan = w.chan ∧ g1.fs = g.fs ∧
      g1.writes = g.writes := by
  obtain ⟨hl, hreg, hw, hid, hret, hrecv, hreq, hresp, hall⟩ := hacc
  have hk : k < g.sessions.length := (List.getElem?_eq_some.1 hw).1
  cases hc : w.chan[w.recv]? with
  | none =>
    unfold workerStep at hstep
    simp [hw, hret, hc] at hstep
  | some c =>
    have hlt : w.recv < w.chan.length := (List.getElem?_eq_some.1 hc).1
    have hord : c.order = DumpOrderWrite := hall c (List.getElem?_mem hc)
    have htake := take_succ_of_getElem? w.chan w.recv c hc
    rw [workerStep_write g k w c f1 f2 hw hret hc hord] at hstep
    simp only [Option.some.injEq] at hstep
    subst hstep
    refine ⟨⟨w.id, w.chan, w.recv + 1, w.reqBuf ++ reqOf [c], w.respBuf ++ respOf [c], false⟩,
      ⟨hl, hreg, ?_, hid, rfl, hlt, ?_, ?_, hall⟩, rfl, rfl, rfl⟩
    · simp [List.getElem?_set, hk]
    · show w.reqBuf ++ reqOf [c] = reqOf (w.chan.take (w.recv + 1))
      rw [htake, reqOf_append, ← hreq]
    · show w.respBuf ++ respOf [c] = respOf (w.chan.take (w.recv + 1))
      rw [htake, respOf_append, ← hresp]

theorem WriteRequest_registered (g : FileDump) (id : Int) (d : Bytes) (k : Nat)
    (hl : g.locked = false) (hreg : lookupActive g.Actives id = some k) :
    g.WriteRequest id d = some ({ g with
      sessions := send g.sessions k ⟨d, DumpOrderWrite, DumpRequestEntity⟩ },
      (d.length : Int), (none : Option Err)) := by
  unfold FileDump.WriteRequest
  rw [if_neg (by simp [hl])]
  simp only [hreg]

theorem WriteResponse_registered (g : FileDump) (id : Int) (d : Bytes) (k : Nat)
    (hl : g.locked = false) (hreg : lookupActive g.Actives id = some k) :
    g.WriteResponse id d = some ({ g with
      sessions := send g.sessions k ⟨d, DumpOrderWrite, DumpResponseEntity⟩ },
      (d.length : Int), (none : Option Err)) := by
  unfold FileDump.WriteResponse
  rw [if_neg (by simp [hl])]
  simp only [hreg]

theorem overwrite_received (g g1 : FileDump) (k i : Nat) (d : Bytes) (w : Session)
    (hw : g.sessions[k]? = some w) (hi : i < w.recv) (hstep : g.overwrite k i d = some g1) :
    g1 = g := by
  unfold FileDump.overwrite at hstep
  simp only [hw] at hstep
  cases hc : w.chan[i]? with
  | none => simp [hc] at hstep
  | some c =>
    simp only [hc, hi, if_true] at hstep
    split at hstep
    · simp only [Option.some.injEq] at hstep
      exact hstep.symm
    · cases hstep

theorem accumulating_step (g g1 : FileDump) (id : Int) (k : Nat) (w : Session) (e : Event)
    (hacc : Accumulating g id k w) (he : sessionEvent id k e = true)
    (hkeep : keepsQueued g e = true) (hstep : g.step e = some g1) :
    ∃ w1, Accumulating g1 id k w1 ∧
      reqOf w1.chan = reqOf w.chan ++ requestBytes id [e] ∧
      respOf w1.chan = respOf w.chan ++ responseBytes id [e] ∧
      g1.fs = g.fs ∧ g1.writes = g.writes := by
  cases e with
  | InitDump i => simp [sessionEvent] at he
  | Complete i => simp [sessionEvent] at he
  | Clear a b => simp [sessionEvent] at he
  | WriteRequest i d =>
    have hi : i = id := by simpa [sessionEvent] using he
    subst hi
    have hsend := accumulating_send g i k w ⟨d, DumpOrderWrite, DumpRequestEntity⟩ hacc rfl
    obtain ⟨hl, hreg, _⟩ := hacc
    simp only [FileDump.step, WriteRequest_registered g i d k hl hreg, Option.map_some',
      Option.some.injEq] at hstep
    subst hstep
    refine ⟨_, hsend, ?_, ?_, rfl, rfl⟩
    · simp [reqOf_append, reqOf, requestBytes]
    · simp [respOf_append, respOf, responseBytes, DumpRequestEntity, DumpResponseEntity]
  | WriteResponse i d =>
    have hi : i = id := by simpa [sessionEvent] using he
    subst hi
    have hsend := accumulating_send g i k w ⟨d, DumpOrderWrite, DumpResponseEntity⟩ hacc rfl
    obtain ⟨hl, hreg, _⟩ := hacc
    simp only [FileDump.step, WriteResponse_registered g i d k hl hreg, Option.map_some',
      Option.some.injEq] at hstep
    subst hstep
    refine ⟨_, hsend, ?_, ?_, rfl, rfl⟩
    · simp [reqOf_append, reqOf, requestBytes, DumpRequestEntity, DumpResponseEntity]
    · simp [respOf_append, respOf, responseBytes]
  | work j a b =>
    have hj : j = k := by simpa [sessionEvent] using he
    subst hj
    obtain ⟨w1, hacc1, hchan, hfs, hwr⟩ := accumulating_work g g1 id j w a b hacc hstep
    refine ⟨w1, hacc1, ?_, ?_, hfs, hwr⟩
    · rw [hchan]; simp [requestBytes]
    · rw [hchan]; simp [responseBytes]
  | overwrite j i d =>
    have hj : j = k := by simpa [sessionEvent] using he
    subst hj
    have hw : g.sessions[j]? = some w := hacc.2.2.1
    have hi : i < w.recv := by simpa [keepsQueued, hw] using hkeep
    have hg : g1 = g := overwrite_received g g1 j i d w hw hi hstep
    subst hg
    exact ⟨w, hacc, by simp [requestBytes], by simp [responseBytes], rfl, rfl⟩

theorem accumulating_run (id : Int) (k : Nat) (evs : List Event) :
    ∀ (g g1 : FileDump) (w : Session), Accumulating g id k w →
      (∀ e ∈ evs, sessionEvent id k e = true) → keepsQueuedRun g evs = true →
      g.run evs = some g1 →
      ∃ w1, Accumulating g1 id k w1 ∧
        reqOf w1.chan = reqOf w.chan ++ requestBytes id evs ∧
        respOf w1.chan = respOf w.chan ++ responseBytes id evs ∧
        g1.fs = g.fs ∧ g1.writes = g.writes := by
  induction evs with
  | nil =>
    intro g g1 w hacc _ _ hrun
    simp only [FileDump.run, Option.some.injEq] at hrun
    subst hrun
    exact ⟨w, hacc, by simp [requestBytes], by simp [responseBytes], rfl, rfl⟩
  | cons e rest ih =>
    intro g g1 w hacc hevs hkeep hrun
    unfold FileDump.run at hrun
    cases hstep : g.step e with
    | none => simp [hstep] at hrun
    | some g2 =>
      simp only [hstep] at hrun
      simp only [keepsQueuedRun, hstep, Bool.and_eq_true] at hkeep
      obtain ⟨w2, hacc2, hreq2, hresp2, hfs2, hwr2⟩ :=
        accumulating_step g g2 id k w e hacc (hevs e (List.mem_cons_self _ _)) hkeep.1 hstep
      obtain ⟨w1, hacc1, hreq1, hresp1, hfs1, hwr1⟩ :=
        ih g2 g1 w2 hacc2 (fun x hx => hevs x (List.mem_cons_of_mem _ hx)) hkeep.2 hrun
      refine ⟨w1, hacc1, ?_, ?_, hfs1.trans hfs2, hwr1.trans hwr2⟩
      · rw [hreq1, hreq2, requestBytes_cons id e rest, List.append_assoc]
      · rw [hresp1, hresp2, responseBytes_cons id e rest, List.append_assoc]

theorem run_append (a b : List Event) : ∀ g : FileDump,
    g.run (a ++ b) = (g.run a).bind (fun g1 => g1.run b) := by
  induction a with
  | nil => intro g; rfl
  | cons e rest ih =>
    intro g
    simp only [List.cons_append, FileDump.run]
    cases g.step e with
    | none => rfl
    | some g2 => exact ih g2

/-- A worker whose channel holds write commands and then the close command
receives them all and flushes the payloads of the whole channel. -/
theorem worker_drains (f1 f2 : Option Err) (k : Nat) (cs : List fileDumpEntity)
    (hcs : ∀ c ∈ cs, c.order = DumpOrderWrite) (n : Nat) :
    ∀ (g : FileDump) (w : Session), g.sessions[k]? = some w → w.returned = false →
      w.chan = cs ++ [closeCmd] → w.recv + n = cs.length →
      w.reqBuf = reqOf (cs.take w.recv) → w.respBuf = respOf (cs.take w.recv) →
      ∃ g1 w1, g.run (List.replicate (n + 1) (Event.work k f1 f2)) = some g1 ∧
        g1.sessions[k]? = some w1 ∧ w1.returned = true ∧
        g1.fs = (flush g w.id (reqOf cs) (respOf cs) f1 f2).fs ∧
        g1.writes = (flush g w.id (reqOf cs) (respOf cs) f1 f2).writes := by
  induction n with
  | zero =>
    intro g w hw hret hchan hrecv hreq hresp
    have hk : k < g.sessions.length := (List.getElem?_eq_some.1 hw).1
    have hrecv2 : w.recv = cs.length := by omega
    have hc : w.chan[w.recv]? = some closeCmd := by
      rw [hchan, hrecv2]
      simp
    have hstep := workerStep_close g k w f1 f2 hw hret hc
    rw [hrecv2, List.take_length] at hreq hresp
    refine ⟨{ flush g w.id w.reqBuf w.respBuf f1 f2 with
        sessions := g.sessions.set k ⟨w.id, w.chan, w.recv + 1, w.reqBuf, w.respBuf, true⟩ },
      ⟨w.id, w.chan, w.recv + 1, w.reqBuf, w.respBuf, true⟩, ?_, ?_, rfl, ?_, ?_⟩
    · simp only [List.replicate, FileDump.run, FileDump.step, hstep]
    · simp [List.getElem?_set, hk]
    · rw [hreq, hresp]
    · rw [hreq, hresp]
  | succ n ih =>
    intro g w hw hret hchan hrecv hreq hresp
    have hk : k < g.sessions.length := (List.getElem?_eq_some.1 hw).1
    have hlt : w.recv < cs.length := by omega
    have hget : cs[w.recv]? = some cs[w.recv] := List.getElem?_eq_getElem hlt
    have hc : w.chan[w.recv]? = some cs[w.recv] := by
      rw [hchan, List.getElem?_append_left hlt, hget]
    have hord : cs[w.recv].order = DumpOrderWrite := hcs _ (List.getElem_mem hlt)
    have hstep := workerStep_write g k w cs[w.recv] f1 f2 hw hret hc hord
    have htake := take_succ_of_getElem? cs w.recv cs[w.recv] hget
    obtain ⟨g1, w1, hrun, hw1, hret1, hfs, hwr⟩ :=
      ih { g with sessions := g.sessions.set k
                    ⟨w.id, w.chan, w.recv + 1, w.reqBuf ++ reqOf [cs[w.recv]],
                      w.respBuf ++ respOf [cs[w.recv]], false⟩ }
        ⟨w.id, w.chan, w.recv + 1, w.reqBuf ++ reqOf [cs[w.recv]],
          w.respBuf ++ respOf [cs[w.recv]], false⟩
        (by simp [List.getElem?_set, hk]) rfl hchan (by simp only; omega)
        (by simp only; rw [htake, reqOf_append, ← hreq])
        (by simp only; rw [htake, respOf_append, ← hresp])
    refine ⟨g1, w1, ?_, hw1, hret1, hfs, hwr⟩
    rw [List.replicate_succ, FileDump.run]
    simp only [FileDump.step, hstep]
    exact hrun

/-- Counterexample to C3 as stated. Session 7 is registered and
`WriteRequest(7, [1, 2])` is called; the caller then stores 9 into the first
byte of the slice it passed, before the worker has received the command, and
calls `Complete(7)`. The worker receives the write command and the close
command, and the request artifact it writes is `[9, 2]`, not the payload
`[1, 2]` of the call. -/
theorem capture_ordering_counterexample :
    (NewFileDump ⟨true, []⟩).run
        [Event.InitDump 7, Event.WriteRequest 7 [1, 2], Event.overwrite 0 0 [9, 2],
          Event.Complete 7, Event.work 0 none none, Event.work 0 none none] =
      some ⟨[], false, [⟨7, [⟨[9, 2], 0, 2⟩, ⟨[], 1, 0⟩], 2, [9, 2], [], true⟩],
        ⟨true, [("./temp/7_reponse.txt", []), ("./temp/7_request.txt", [9, 2])]⟩,
        [("./temp/7_request.txt", [9, 2], none), ("./temp/7_reponse.txt", [], none)]⟩ ∧
      requestBytes 7
        [Event.InitDump 7, Event.WriteRequest 7 [1, 2], Event.overwrite 0 0 [9, 2],
          Event.Complete 7, Event.work 0 none none, Event.work 0 none none] = [1, 2] ∧
      requestFile 7 = "./temp/7_request.txt" ∧
      (⟨[], false, [⟨7, [⟨[9, 2], 0, 2⟩, ⟨[], 1, 0⟩], 2, [9, 2], [], true⟩],
        ⟨true, [("./temp/7_reponse.txt", []), ("./temp/7_request.txt", [9, 2])]⟩,
        [("./temp/7_request.txt", [9, 2], none), ("./temp/7_reponse.txt", [], none)]⟩
        : FileDump).fs.get (requestFile 7) = some [9, 2] ∧
      ([9, 2] : Bytes) ≠ [1, 2] := by
  refine ⟨by decide, by decide, by decide, by decide, by decide⟩

/-- C3, amended. Capture ordering: register `id` with `InitDump`, let writes
for `id`, turns of its worker and stores of the caller into slices it has
passed follow in any order, then call `Complete(id)`. If every such store is
into a slice whose command the worker has received already, the worker then
receives what is left on its channel and returns, and its flush is the flush
of exactly the request payloads in call order and of exactly the response
payloads in call order: those are the two `WriteFile` calls it adds. -/
theorem capture_ordering (f0 g : FileDump) (id : Int) (evs : List Event) (f1 f2 : Option Err)
    (hlock : f0.locked = false)
    (hevs : ∀ e ∈ evs, sessionEvent id f0.sessions.length e = true)
    (hkeep : keepsQueuedRun f0 (Event.InitDump id :: evs) = true)
    (hrun : f0.run (Event.InitDump id :: evs ++ [Event.Complete id]) = some g) :
    ∃ n g1 w1 e1 e2,
      g.run (List.replicate n (Event.work f0.sessions.length f1 f2)) = some g1 ∧
      g1.sessions[f0.sessions.length]? = some w1 ∧ w1.returned = true ∧
      g1.writes = f0.writes ++
        [(requestFile id, requestBytes id evs, e1), (responseFile id, responseBytes id evs, e2)] ∧
      g1.fs = (flush f0 id (requestBytes id evs) (responseBytes id evs) f1 f2).fs := by
  -- the state after `InitDump`
  have hinit : f0.step (Event.InitDump id) = some { f0 with
      Actives := (id, f0.sessions.length) :: deleteActive f0.Actives id
      sessions := f0.sessions ++ [⟨id, [], 0, [], [], false⟩] } := by
    simp only [FileDump.step, FileDump.InitDump]
    rw [if_neg (by simp [hlock])]
    rfl
  have hacc0 : Accumulating { f0 with
      Actives := (id, f0.sessions.length) :: deleteActive f0.Actives id
      sessions := f0.sessions ++ [⟨id, [], 0, [], [], false⟩] } id f0.sessions.length
      ⟨id, [], 0, [], [], false⟩ := by
    refine ⟨hlock, ?_, ?_, rfl, rfl, Nat.le_refl _, rfl, rfl, ?_⟩
    · simp [lookupActive]
    · simp
    · intro c hc; simp at hc
  rw [List.cons_append, FileDump.run] at hrun
  simp only [hinit] at hrun
  simp only [keepsQueuedRun, hinit, keepsQueued, Bool.true_and] at hkeep
  rw [run_append] at hrun
  cases hmid : FileDump.run { f0 with
      Actives := (id, f0.sessions.length) :: deleteActive f0.Actives id
      sessions := f0.sessions ++ [⟨id, [], 0, [], [], false⟩] } evs with
  | none => rw [hmid] at hrun; simp at hrun
  | some g2 =>
    rw [hmid] at hrun
    obtain ⟨w2, hacc2, hreq2, hresp2, hfs2, hwr2⟩ :=
      accumulating_run id f0.sessions.length evs _ g2 _ hacc0 hevs hkeep hmid
    obtain ⟨hl2, hreg2, hw2, hid2, hret2, hrecv2, hreqb, hrespb, hall2⟩ := hacc2
    -- `Complete` sends the close command
    have hcomp : g2.Complete id = some ({ g2 with
        Actives := deleteActive g2.Actives id
        sessions := send g2.sessions f0.sessions.length closeCmd }, none) := by
      unfold FileDump.Complete
      rw [if_neg (by simp [hl2])]
      simp only [hreg2]
    simp only [Option.bind, FileDump.run, FileDump.step, hcomp, Option.map_some',
      Option.some.injEq] at hrun
    subst hrun
    obtain ⟨g1, w1, hdrain, hw1, hret1, hfs1, hwr1⟩ :=
      worker_drains f1 f2 f0.sessions.length w2.chan hall2 (w2.chan.length - w2.recv)
        { g2 with
          Actives := deleteActive g2.Actives id
          sessions := send g2.sessions f0.sessions.length closeCmd }
        { w2 with chan := w2.chan ++ [closeCmd] }
        (send_getElem?_same g2.sessions _ closeCmd w2 hw2) hret2 rfl
        (by simp only; omega) hreqb hrespb
    simp only [List.nil_append, reqOf, respOf] at hreq2 hresp2
    refine ⟨_, g1, w1, (WriteFile f0.fs (requestFile id) (requestBytes id evs) f1).2,
      (WriteFile (WriteFile f0.fs (requestFile id) (requestBytes id evs) f1).1
        (responseFile id) (responseBytes id evs) f2).2, hdrain, hw1, hret1, ?_, ?_⟩
    · have hfs3 : g2.fs = f0.fs := hfs2
      have hwr3 : g2.writes = f0.writes := hwr2
      rw [hwr1]
      simp only [flush, hwr3, hfs3, hid2, hreq2, hresp2]
    · have hfs3 : g2.fs = f0.fs := hfs2
      rw [hfs1]
      simp only [flush, hfs3, hid2, hreq2, hresp2]

/-- Witness of C3: the example of the claim. The request writes `R1 = [1, 2]`
and `R2 = [3]` and the response write `P1 = [9]` for id 7, one turn of the
worker in between, after which the caller stores into the slice of `R1`, then
`Complete(7)`. -/
theorem capture_ordering_witness :
    ∃ n g1 w1 e1 e2,
      (⟨[], false, [⟨7, [⟨[1, 2], 0, 2⟩, ⟨[9], 0, 3⟩, ⟨[3], 0, 2⟩, ⟨[], 1, 0⟩], 1, [1, 2], [], false⟩],
          ⟨true, []⟩, []⟩ : FileDump).run (List.replicate n (Event.work 0 none none)) = some g1 ∧
      g1.sessions[0]? = some w1 ∧ w1.returned = true ∧
      g1.writes = [] ++ [(requestFile 7, [1, 2, 3], e1), (responseFile 7, [9], e2)] ∧
      g1.fs = (flush ⟨[], false, [], ⟨true, []⟩, []⟩ 7 [1, 2, 3] [9] none none).fs :=
  capture_ordering ⟨[], false, [], ⟨true, []⟩, []⟩ _ 7
    [Event.WriteRequest 7 [1, 2], Event.WriteResponse 7 [9], Event.work 0 none none,
      Event.overwrite 0 0 [5, 6], Event.WriteRequest 7 [3]] none none rfl (by decide)
    (by decide) (by rfl)

/-! ## Artifact names -/

theorem digitsOf_ne_nil (fuel n : Nat) (h : 0 < fuel) : digitsOf fuel n ≠ [] := by
  cases fuel with
  | zero => omega
  | succ m =>
    unfold digitsOf
    split <;> simp

theorem requestFile_seven : requestFile 7 = "./temp/7_request.txt" := by
  decide

theorem responseFile_negative : responseFile (-120) = "./temp/-120_reponse.txt" := by
  decide

/-! ## Reading back -/

theorem WriteFile_dir (fs : FS) (name : String) (data : Bytes) (fault : Option Err)
    (hdir : fs.dir = true) : (WriteFile fs name data fault).1.dir = true := by
  unfold WriteFile
  cases fault with
  | some e => exact hdir
  | none => simp [hdir]

theorem flush_dir (f : FileDump) (id : Int) (req resp : Bytes) (f1 f2 : Option Err)
    (hdir : f.fs.dir = true) : (flush f id req resp f1 f2).fs.dir = true :=
  WriteFile_dir _ _ _ _ (WriteFile_dir _ _ _ _ hdir)

end shuttle

namespace dns

variable {α : Type}

/-! ## A timer fire over an empty pool -/

theorem down_no_child (fuel : Nat) (h : CachePool α) :
    down (fuel + 1) h 0 (-1) = some h := by
  unfold down
  simp

/-- C20. A timer-fire step over an empty pool is safe. With `Len() = 0`,
`heap.Pop` calls `Swap(0, -1)`, which its guard makes a no-op, then the
sift-down loop, which stops before any `Less` call (every `Less` call on the
empty slice would be an index out of range), then `Pop`, which returns nil;
so `heap.Pop` returns nil without a panic. The fire step then returns, and the
pool is empty after it. The pool is empty after `CacheManager.Clear` and in a
new manager. -/
theorem fire_on_empty_pool_safe (t : Timer) (now : Int) :
    (⟨[]⟩ : CachePool α).Len = 0 ∧
      (⟨[]⟩ : CachePool α).Swap 0 (-1) = ⟨[]⟩ ∧
      (∀ i j, (⟨[]⟩ : CachePool α).Less i j = none) ∧
      (∀ fuel, down (fuel + 1) (⟨[]⟩ : CachePool α) 0 (-1) = some ⟨[]⟩) ∧
      (⟨[]⟩ : CachePool α).Pop = (⟨[]⟩, none) ∧
      heapPop (⟨[]⟩ : CachePool α) = some (⟨[]⟩, none) ∧
      (∃ c1, (⟨t, ⟨[]⟩⟩ : CacheManager α).fire now = some c1 ∧ c1.pool.list = []) ∧
      (∀ m : CacheManager α, m.Clear.pool.list = []) ∧
      (NewCacheManager now : CacheManager α).pool.list = [] := by
  refine ⟨rfl, rfl, ?_, fun fuel => down_no_child fuel _, rfl, rfl, ⟨_, rfl, rfl⟩,
    fun _ => rfl, rfl⟩
  intro i j
  have hi : (⟨[]⟩ : CachePool α).idx i = none := by
    unfold CachePool.idx
    split <;> simp
  simp only [CachePool.Less, hi]

/-! ## The head is the soonest expiry -/

theorem heapKeys_root_min (f : Nat → Int) (n : Nat) (h : HeapKeys f n) :
    ∀ k, k < n → f 0 ≤ f k := by
  intro k
  induction k using Nat.strong_induction_on with
  | _ k ih =>
    intro hk
    by_cases hk0 : k = 0
    · subst hk0; exact le_refl _
    · have hp : (k - 1) / 2 < k := by omega
      have h1 := ih ((k - 1) / 2) hp (by omega)
      have h2 := h k (by omega) hk
      omega

theorem heapKeys_of_heapInv (c : CachePool α) (h : HeapInv c) :
    HeapKeys (keyD c.list) c.list.length := by
  intro k hk0 hkn
  have hp : (k - 1) / 2 < c.list.length := by omega
  have ha : c.list[(k - 1) / 2]? = some c.list[(k - 1) / 2] := List.getElem?_eq_getElem hp
  have hb : c.list[k]? = some c.list[k] := List.getElem?_eq_getElem hkn
  obtain ⟨hl, hr⟩ := h ((k - 1) / 2) _ ha
  have hcase : k = 2 * ((k - 1) / 2) + 1 ∨ k = 2 * ((k - 1) / 2) + 2 := by omega
  simp only [keyD, ha, hb]
  rcases hcase with hc | hc
  · apply hl
    rw [← hc]
    exact hb
  · apply hr
    rw [← hc]
    exact hb

theorem head_min (l : List (CacheEntity α)) (h : HeapKeys (keyD l) l.length)
    (e : CacheEntity α) (he : l.head? = some e) : ∀ x ∈ l, e.expires ≤ x.expires := by
  intro x hx
  obtain ⟨k, hk, hxk⟩ := List.getElem_of_mem hx
  have h0 : keyD l 0 = e.expires := by
    cases l with
    | nil => simp at he
    | cons a rest =>
      simp only [List.head?_cons, Option.some.injEq] at he
      subst he
      simp [keyD]
  have hkx : keyD l k = x.expires := by
    simp only [keyD, List.getElem?_eq_getElem hk, hxk]
  have := heapKeys_root_min _ _ h k hk
  omega

/-- C15. On a pool that satisfies the heap invariant, with the clock read as
`now` during the call, `refresh` returns and removes exactly the entries with
`expires < now`: what it removes has `expires < now`, every entry it leaves has
`expires ≥ now` (the pool is empty, or its head is armed with a wait that is
not negative), so every entry that had `expires ≥ now` is still in the pool;
and the pool still satisfies the heap invariant. -/
theorem refresh_removes_expired (c : CacheManager α) (now : Int) (hheap : HeapInv c.pool) :
    ∃ c1 removed, c.refresh now = some c1 ∧
      (removed ++ c1.pool.list).Perm c.pool.list ∧
      (∀ r ∈ removed, r.expires < now) ∧
      (∀ e ∈ c1.pool.list, now ≤ e.expires) ∧
      (c1.pool.list = [] ∨
        ∃ e, c1.pool.Head = some e ∧ c1.timer.wait = e.expires - now ∧ 0 ≤ c1.timer.wait) ∧
      (∀ x ∈ c.pool.list, now ≤ x.expires → x ∈ c1.pool.list) ∧
      HeapInv c1.pool := by
  obtain ⟨c1, removed, hrun, hperm, hrem, hkeys, harm⟩ := refresh_spec c now
  have hk1 := hkeys (heapKeys_of_heapInv c.pool hheap)
  refine ⟨c1, removed, hrun, hperm, hrem, ?_, ?_, ?_, heapInv_of_heapKeys c1.pool hk1⟩
  · intro e he
    rcases harm.2 with ⟨hnil, _⟩ | ⟨e0, he0, hw, hpos⟩
    · rw [hnil] at he; simp at he
    · rw [Head_eq_head?] at he0
      have := head_min c1.pool.list hk1 e0 he0 e he
      omega
  · rcases harm.2 with ⟨hnil, _⟩ | h
    · exact Or.inl hnil
    · exact Or.inr h
  · intro x hx hlive
    have hmem : x ∈ removed ++ c1.pool.list := hperm.mem_iff.2 hx
    rcases List.mem_append.1 hmem with h | h
    · have := hrem x h
      omega
    · exact h

theorem heapKeys_three :
    HeapKeys (keyD [(⟨1, 10⟩ : CacheEntity Nat), ⟨2, 60⟩, ⟨3, 40⟩]) 3 := by
  intro k hk0 hkn
  interval_cases k <;> simp [keyD]

/-- Witness of C15: a heap of three entries, the head expired at time 50. -/
theorem refresh_removes_expired_witness :
    ∃ c1 removed, (⟨⟨0, 10⟩, ⟨[⟨1, 10⟩, ⟨2, 60⟩, ⟨3, 40⟩]⟩⟩ : CacheManager Nat).refresh 50 = some c1 ∧
      (removed ++ c1.pool.list).Perm [⟨1, 10⟩, ⟨2, 60⟩, ⟨3, 40⟩] ∧
      (∀ r ∈ removed, r.expires < 50) ∧
      (∀ e ∈ c1.pool.list, 50 ≤ e.expires) ∧
      (c1.pool.list = [] ∨
        ∃ e, c1.pool.Head = some e ∧ c1.timer.wait = e.expires - 50 ∧ 0 ≤ c1.timer.wait) ∧
      (∀ x ∈ [(⟨1, 10⟩ : CacheEntity Nat), ⟨2, 60⟩, ⟨3, 40⟩], 50 ≤ x.expires → x ∈ c1.pool.list) ∧
      HeapInv c1.pool :=
  refresh_removes_expired ⟨⟨0, 10⟩, ⟨[⟨1, 10⟩, ⟨2, 60⟩, ⟨3, 40⟩]⟩⟩ 50
    (heapInv_of_heapKeys ⟨[⟨1, 10⟩, ⟨2, 60⟩, ⟨3, 40⟩]⟩ heapKeys_three)

/-! ## The timer target -/

theorem step_heapKeys (c : CacheManager α) (st : Step α)
    (hk : HeapKeys (keyD c.pool.list) c.pool.list.length) :
    ∃ c1, c.step st = some c1 ∧ HeapKeys (keyD c1.pool.list) c1.pool.list.length ∧
      Armed c1 st.time := by
  cases st with
  | push data ttl now =>
    obtain ⟨c1, _, hrun, _, _, hkeys, harm⟩ := Push_spec c data ttl now
    exact ⟨c1, hrun, hkeys hk, harm⟩
  | fire now =>
    obtain ⟨c1, _, hrun, _, _, hkeys, harm⟩ := fire_spec c now
    exact ⟨c1, hrun, hkeys hk, harm⟩

theorem run_heapKeys (steps : List (Step α)) : ∀ (c c1 : CacheManager α),
    HeapKeys (keyD c.pool.list) c.pool.list.length → c.run steps = some c1 →
    HeapKeys (keyD c1.pool.list) c1.pool.list.length := by
  induction steps with
  | nil =>
    intro c c1 hk hrun
    simp only [CacheManager.run, Option.some.injEq] at hrun
    subst hrun
    exact hk
  | cons st rest ih =>
    intro c c1 hk hrun
    unfold CacheManager.run at hrun
    by_cases hen : st.enabled c = true
    · rw [if_pos hen] at hrun
      obtain ⟨c2, hstep, hk2, _⟩ := step_heapKeys c st hk
      simp only [hstep] at hrun
      exact ih c2 c1 hk2 hrun
    · rw [if_neg hen] at hrun
      cases hrun

theorem heapKeys_new (t0 : Int) :
    HeapKeys (keyD (NewCacheManager t0 : CacheManager α).pool.list)
      (NewCacheManager t0 : CacheManager α).pool.list.length := by
  intro k _ hkn
  simp [NewCacheManager, NewCachePool] at hkn

/-- C16. The timer reflects the soonest pending expiry. In a state reached
from a new manager by `Push` and timer-fire steps, every further `Push` and
every further timer fire returns, and when it leaves the pool non-empty the
timer has been reset at the time `now` of the step with
`wait = m - now ≥ 0`, `m` being the least `expires` in the pool, so that it
targets `m`. In particular a `Push` (with a TTL that is not negative) of an
entry that expires before the current target of the timer moves the target to
that entry's expiry. -/
theorem timer_targets_minimum (t0 : Int) (before : List (Step α)) (c : CacheManager α)
    (st : Step α) (h0 : (NewCacheManager t0 : CacheManager α).run before = some c) :
    ∃ c1, c.step st = some c1 ∧
      (c1.pool.list ≠ [] →
        ∃ e ∈ c1.pool.list, (∀ x ∈ c1.pool.list, e.expires ≤ x.expires) ∧
          c1.timer.setAt = st.time ∧ c1.timer.wait = e.expires - st.time ∧
          0 ≤ c1.timer.wait ∧ c1.timer.deadline = e.expires) ∧
      (∀ data ttl now, st = Step.push data ttl now → 0 ≤ ttl →
        now + ttl < c.timer.deadline → c1.timer.deadline = now + ttl) := by
  have hk : HeapKeys (keyD c.pool.list) c.pool.list.length :=
    run_heapKeys before _ c (heapKeys_new t0) h0
  have hinv : TimerAtHead c := (run_spec before _ c (timerAtHead_new t0) h0).1
  obtain ⟨c1, hstep, hk1, harm⟩ := step_heapKeys c st hk
  have hmin : c1.pool.list ≠ [] →
      ∃ e ∈ c1.pool.list, (∀ x ∈ c1.pool.list, e.expires ≤ x.expires) ∧
        c1.timer.setAt = st.time ∧ c1.timer.wait = e.expires - st.time ∧
        0 ≤ c1.timer.wait ∧ c1.timer.deadline = e.expires := by
    intro hne
    rcases harm.2 with ⟨hnil, _⟩ | ⟨e, he, hw, hpos⟩
    · exact absurd hnil hne
    · have he2 : c1.pool.list.head? = some e := by rw [← Head_eq_head?]; exact he
      exact ⟨e, List.mem_of_mem_head? he2, head_min c1.pool.list hk1 e he2, harm.1, hw, hpos,
        armed_timerAtHead harm e he⟩
  refine ⟨c1, hstep, hmin, ?_⟩
  intro data ttl now heq httl hsooner
  subst heq
  obtain ⟨c2, removed, hrun, hperm, hrem, _, _⟩ := Push_spec c data ttl now
  have hc : c2 = c1 := by
    have h1 : c.step (Step.push data ttl now) = some c2 := hrun
    rw [hstep] at h1
    exact (Option.some.inj h1).symm
  subst hc
  have hnew : (⟨data, now + ttl⟩ : CacheEntity α) ∈ c2.pool.list := by
    have hmem : (⟨data, now + ttl⟩ : CacheEntity α) ∈ removed ++ c2.pool.list :=
      hperm.mem_iff.2 (List.mem_append_right _ (List.mem_singleton.2 rfl))
    rcases List.mem_append.1 hmem with h | h
    · have := hrem _ h
      simp only at this
      omega
    · exact h
  obtain ⟨e, he, hle, _, _, _, hdl⟩ := hmin (List.ne_nil_of_mem hnew)
  rw [hdl]
  have h1 : e.expires ≤ now + ttl := hle _ hnew
  have hold : e ∈ c.pool.list ++ [⟨data, now + ttl⟩] :=
    hperm.mem_iff.1 (List.mem_append_right _ he)
  rcases List.mem_append.1 hold with h | h
  · -- an old entry is no sooner than the old head, which the timer targets
    exfalso
    cases hh : c.pool.list.head? with
    | none =>
      have : c.pool.list = [] := by simpa using hh
      rw [this] at h
      simp at h
    | some h0e =>
      have hd := hinv h0e (by rw [Head_eq_head?]; exact hh)
      have := head_min c.pool.list hk h0e hh e h
      omega
  · rw [List.mem_singleton.1 h]

/-- Witness of C16: after a push at time 0 of an entry expiring at 100, a push
at time 5 of an entry expiring at 15. -/
theorem timer_targets_minimum_witness :
    ∃ c1, (⟨⟨0, 100⟩, ⟨[⟨1, 100⟩]⟩⟩ : CacheManager Nat).step (Step.push 2 10 5) = some c1 ∧
      (c1.pool.list ≠ [] →
        ∃ e ∈ c1.pool.list, (∀ x ∈ c1.pool.list, e.expires ≤ x.expires) ∧
          c1.timer.setAt = (Step.push 2 10 5 : Step Nat).time ∧
          c1.timer.wait = e.expires - (Step.push 2 10 5 : Step Nat).time ∧
          0 ≤ c1.timer.wait ∧ c1.timer.deadline = e.expires) ∧
      (∀ data ttl now, (Step.push 2 10 5 : Step Nat) = Step.push data ttl now → 0 ≤ ttl →
        now + ttl < (⟨⟨0, 100⟩, ⟨[⟨1, 100⟩]⟩⟩ : CacheManager Nat).timer.deadline →
        c1.timer.deadline = now + ttl) :=
  timer_targets_minimum 0 [Step.push 1 100 0] ⟨⟨0, 100⟩, ⟨[⟨1, 100⟩]⟩⟩ (Step.push 2 10 5)
    (by decide)

end dns

namespace shuttle

/-! ## Writes for an id that is not registered -/

theorem WriteRequest_unregistered (f : FileDump) (id : Int) (data : Bytes)
    (hl : f.locked = false) (hreg : lookupActive f.Actives id = none) :
    f.WriteRequest id data = some (f, (data.length : Int), (none : Option Err)) := by
  unfold FileDump.WriteRequest
  rw [if_neg (by simp [hl])]
  simp only [hreg]

theorem WriteResponse_unregistered (f : FileDump) (id : Int) (data : Bytes)
    (hl : f.locked = false) (hreg : lookupActive f.Actives id = none) :
    f.WriteResponse id data = some (f, (data.length : Int), (none : Option Err)) := by
  unfold FileDump.WriteResponse
  rw [if_neg (by simp [hl])]
  simp only [hreg]

/-- C11. Drop on unregistered: `WriteRequest(id, data)` and
`WriteResponse(id, data)` return `(len(data), nil)` for every id and data;
when `id` is not in the registry they leave the whole state as it was (the
registry, every channel, the directory), so that whatever happens afterwards,
every later flush included, happens exactly as if the write had not been
made. -/
theorem write_unregistered_dropped (f : FileDump) (id : Int) (data : Bytes)
    (hlock : f.locked = false) :
    (∃ g, f.WriteRequest id data = some (g, (data.length : Int), (none : Option Err))) ∧
      (∃ g, f.WriteResponse id data = some (g, (data.length : Int), (none : Option Err))) ∧
      (lookupActive f.Actives id = none →
        f.WriteRequest id data = some (f, (data.length : Int), (none : Option Err)) ∧
        f.WriteResponse id data = some (f, (data.length : Int), (none : Option Err)) ∧
        ∀ evs, f.run (Event.WriteRequest id data :: evs) = f.run evs ∧
          f.run (Event.WriteResponse id data :: evs) = f.run evs) := by
  refine ⟨?_, ?_, ?_⟩
  · cases hreg : lookupActive f.Actives id with
    | none => exact ⟨f, WriteRequest_unregistered f id data hlock hreg⟩
    | some k => exact ⟨_, WriteRequest_registered f id data k hlock hreg⟩
  · cases hreg : lookupActive f.Actives id with
    | none => exact ⟨f, WriteResponse_unregistered f id data hlock hreg⟩
    | some k => exact ⟨_, WriteResponse_registered f id data k hlock hreg⟩
  · intro hreg
    have h1 := WriteRequest_unregistered f id data hlock hreg
    have h2 := WriteResponse_unregistered f id data hlock hreg
    refine ⟨h1, h2, fun evs => ⟨?_, ?_⟩⟩
    · simp only [FileDump.run, FileDump.step, h1, Option.map_some']
    · simp only [FileDump.run, FileDump.step, h2, Option.map_some']

/-- Witness of C11: id 3 is registered, id 5 is not. -/
theorem write_unregistered_dropped_witness :
    (∃ g, (⟨[(3, 0)], false, [⟨3, [], 0, [], [], false⟩], ⟨true, []⟩, []⟩ : FileDump).WriteRequest
        5 [1, 2] = some (g, (([1, 2] : Bytes).length : Int), (none : Option Err))) ∧
      (∃ g, (⟨[(3, 0)], false, [⟨3, [], 0, [], [], false⟩], ⟨true, []⟩, []⟩ : FileDump).WriteResponse
        5 [1, 2] = some (g, (([1, 2] : Bytes).length : Int), (none : Option Err))) ∧
      (lookupActive [(3, 0)] 5 = none →
        (⟨[(3, 0)], false, [⟨3, [], 0, [], [], false⟩], ⟨true, []⟩, []⟩ : FileDump).WriteRequest
            5 [1, 2] =
          some (⟨[(3, 0)], false, [⟨3, [], 0, [], [], false⟩], ⟨true, []⟩, []⟩,
            (([1, 2] : Bytes).length : Int), (none : Option Err)) ∧
        (⟨[(3, 0)], false, [⟨3, [], 0, [], [], false⟩], ⟨true, []⟩, []⟩ : FileDump).WriteResponse
            5 [1, 2] =
          some (⟨[(3, 0)], false, [⟨3, [], 0, [], [], false⟩], ⟨true, []⟩, []⟩,
            (([1, 2] : Bytes).length : Int), (none : Option Err)) ∧
        ∀ evs,
          (⟨[(3, 0)], false, [⟨3, [], 0, [], [], false⟩], ⟨true, []⟩, []⟩ : FileDump).run
              (Event.WriteRequest 5 [1, 2] :: evs) =
            (⟨[(3, 0)], false, [⟨3, [], 0, [], [], false⟩], ⟨true, []⟩, []⟩ : FileDump).run evs ∧
          (⟨[(3, 0)], false, [⟨3, [], 0, [], [], false⟩], ⟨true, []⟩, []⟩ : FileDump).run
              (Event.WriteResponse 5 [1, 2] :: evs) =
            (⟨[(3, 0)], false, [⟨3, [], 0, [], [], false⟩], ⟨true, []⟩, []⟩ : FileDump).run evs) :=
  write_unregistered_dropped ⟨[(3, 0)], false, [⟨3, [], 0, [], [], false⟩], ⟨true, []⟩, []⟩ 5
    [1, 2] rfl

/-! ## Reading an artifact that does not exist -/

theorem ReadRequest_missing (f : FileDump) (id : Int) (readFault : Option Err)
    (h : f.fs.get (requestFile id) = none) : f.ReadRequest id none readFault = Except.ok [] := by
  simp [FileDump.ReadRequest, Stat, IsNotExist, h]

theorem ReadResponse_missing (f : FileDump) (id : Int) (readFault : Option Err)
    (h : f.fs.get (responseFile id) = none) :
    f.ReadResponse id none readFault = Except.ok [] := by
  simp [FileDump.ReadResponse, Stat, IsNotExist, h]

theorem ReadFile_missing (fs : FS) (name : String) (readFault : Option Err)
    (h : fs.get name = none) : ∃ e1, ReadFile fs name readFault = Except.error e1 := by
  cases readFault with
  | none => exact ⟨errNotExist, by simp [ReadFile, h]⟩
  | some e => exact ⟨e, rfl⟩

/-- Counterexample to C14 as stated. The path `temp` is a regular file: no
artifact of id 7 exists, and the system answers `os.Stat` and `ioutil.ReadFile`
on a path below it with "not a directory", which is no not-exist error.
`ReadRequest(7)` and `ReadResponse(7)` then return that error, not an empty
slice and a nil error. -/
theorem read_missing_artifact_counterexample :
    (⟨[], false, [], ⟨false, []⟩, []⟩ : FileDump).fs.get (requestFile 7) = none ∧
      (⟨[], false, [], ⟨false, []⟩, []⟩ : FileDump).fs.get (responseFile 7) = none ∧
      IsNotExist (some errNotDir) = false ∧
      (⟨[], false, [], ⟨false, []⟩, []⟩ : FileDump).ReadRequest 7 (some errNotDir)
        (some errNotDir) = Except.error errNotDir ∧
      (⟨[], false, [], ⟨false, []⟩, []⟩ : FileDump).ReadResponse 7 (some errNotDir)
        (some errNotDir) = Except.error errNotDir :=
  ⟨rfl, rfl, by decide, by rfl, by rfl⟩

/-- C14, amended. Missing artifact: when the request artifact of `id` does not
exist, `ReadRequest(id)` returns an empty byte slice and a nil error whenever
`os.Stat` answers with a not-exist error, as it does unless the system makes
it fail otherwise; when `os.Stat` fails with another error, `ReadRequest(id)`
returns what `ioutil.ReadFile` returns, which is an error. The same holds of
the response artifact and `ReadResponse(id)`. -/
theorem read_missing_artifact (f : FileDump) (id : Int) (readFault : Option Err) :
    (f.fs.get (requestFile id) = none →
      (∀ statFault, statFault = none ∨ statFault = some errNotExist →
        f.ReadRequest id statFault readFault = Except.ok []) ∧
      (∀ e, e ≠ errNotExist →
        f.ReadRequest id (some e) readFault = ReadFile f.fs (requestFile id) readFault ∧
        ∃ e1, f.ReadRequest id (some e) readFault = Except.error e1)) ∧
      (f.fs.get (responseFile id) = none →
        (∀ statFault, statFault = none ∨ statFault = some errNotExist →
          f.ReadResponse id statFault readFault = Except.ok []) ∧
        (∀ e, e ≠ errNotExist →
          f.ReadResponse id (some e) readFault = ReadFile f.fs (responseFile id) readFault ∧
          ∃ e1, f.ReadResponse id (some e) readFault = Except.error e1)) := by
  constructor
  · intro h
    refine ⟨?_, ?_⟩
    · intro statFault hs
      rcases hs with hs | hs
      · subst hs; exact ReadRequest_missing f id readFault h
      · subst hs; simp [FileDump.ReadRequest, Stat, IsNotExist]
    · intro e he
      have hread : f.ReadRequest id (some e) readFault =
          ReadFile f.fs (requestFile id) readFault := by
        simp [FileDump.ReadRequest, Stat, IsNotExist, he]
      obtain ⟨e1, h1⟩ := ReadFile_missing f.fs (requestFile id) readFault h
      exact ⟨hread, e1, hread.trans h1⟩
  · intro h
    refine ⟨?_, ?_⟩
    · intro statFault hs
      rcases hs with hs | hs
      · subst hs; exact ReadResponse_missing f id readFault h
      · subst hs; simp [FileDump.ReadResponse, Stat, IsNotExist]
    · intro e he
      have hread : f.ReadResponse id (some e) readFault =
          ReadFile f.fs (responseFile id) readFault := by
        simp [FileDump.ReadResponse, Stat, IsNotExist, he]
      obtain ⟨e1, h1⟩ := ReadFile_missing f.fs (responseFile id) readFault h
      exact ⟨hread, e1, hread.trans h1⟩

/-- Witness of C14: the directory holds the request artifact of id 8 only;
the request artifact of id 7 is read, and the response artifact of id 8, with
`os.Stat` answering that they do not exist. -/
theorem read_missing_artifact_witness :
    (⟨[], false, [], ⟨true, [(requestFile 8, [4])]⟩, []⟩ : FileDump).ReadRequest 7 none none =
        Except.ok [] ∧
      (⟨[], false, [], ⟨true, [(requestFile 8, [4])]⟩, []⟩ : FileDump).ReadResponse 8 none none =
        Except.ok [] :=
  ⟨((read_missing_artifact ⟨[], false, [], ⟨true, [(requestFile 8, [4])]⟩, []⟩ 7 none).1
      (by decide)).1 none (Or.inl rfl),
    ((read_missing_artifact ⟨[], false, [], ⟨true, [(requestFile 8, [4])]⟩, []⟩ 8 none).2
      (by decide)).1 none (Or.inl rfl)⟩

/-! ## `Clear`: its result and the lock -/

/-- `Clear` when the directory is present and its removal fails: the error is
returned from inside the critical section. -/
theorem Clear_remove_fails (f : FileDump) (e : Err) (mkFault : Option Err)
    (hlock : f.locked = false) (hdir : f.fs.dir = true) :
    f.Clear (some e) mkFault =
      some (⟨[], true, closeAll f.Actives (f.Actives.map Prod.fst) f.sessions, f.fs, f.writes⟩,
        some e) := by
  unfold FileDump.Clear
  rw [if_neg (by simp [hlock])]
  simp [StatDir, IsNotExist, hdir, RemoveAll]

/-- `Clear` when the removal is not attempted or succeeds, and `os.Mkdir`
fails: the error is returned from inside the critical section. -/
theorem Clear_mkdir_fails (f : FileDump) (rmFault : Option Err) (e : Err)
    (hlock : f.locked = false) (hrm : f.fs.dir = false ∨ rmFault = none) :
    f.Clear rmFault (some e) =
      some (⟨[], true, closeAll f.Actives (f.Actives.map Prod.fst) f.sessions,
        if f.fs.dir = true then ⟨false, []⟩ else f.fs, f.writes⟩, some e) := by
  unfold FileDump.Clear
  rw [if_neg (by simp [hlock])]
  by_cases hdir : f.fs.dir = true
  · have hrm2 : rmFault = none := by
      rcases hrm with h | h
      · rw [hdir] at h; cases h
      · exact h
    subst hrm2
    simp [StatDir, IsNotExist, hdir, RemoveAll, Mkdir]
  · have hdir2 : f.fs.dir = false := by simpa using hdir
    simp [StatDir, IsNotExist, hdir2, Mkdir, errNotExist]

/-- `Clear` when nothing fails: the lock is released and nil returned. -/
theorem Clear_succeeds (f : FileDump) (rmFault : Option Err)
    (hlock : f.locked = false) (hrm : f.fs.dir = false ∨ rmFault = none) :
    f.Clear rmFault none =
      some (⟨[], false, closeAll f.Actives (f.Actives.map Prod.fst) f.sessions, ⟨true, []⟩,
        f.writes⟩, none) := by
  unfold FileDump.Clear
  rw [if_neg (by simp [hlock])]
  by_cases hdir : f.fs.dir = true
  · have hrm2 : rmFault = none := by
      rcases hrm with h | h
      · rw [hdir] at h; cases h
      · exact h
    subst hrm2
    simp [StatDir, IsNotExist, hdir, RemoveAll, Mkdir]
  · have hdir2 : f.fs.dir = false := by simpa using hdir
    simp [StatDir, IsNotExist, hdir2, Mkdir, errNotExist]

theorem removal_cases (f : FileDump) (rmFault : Option Err) :
    (f.fs.dir = true ∧ ∃ e, rmFault = some e) ∨ (f.fs.dir = false ∨ rmFault = none) := by
  by_cases hdir : f.fs.dir = true
  · cases rmFault with
    | none => exact Or.inr (Or.inr rfl)
    | some e => exact Or.inl ⟨hdir, e, rfl⟩
  · exact Or.inr (Or.inl (by simpa using hdir))

/-- C13. `Clear` returns an error exactly when the removal of the directory,
attempted when the directory is present, fails, or the recreation of the
directory fails: the error of the removal when that fails; otherwise the error
of the recreation when that fails; otherwise nil. -/
theorem clear_error_iff (f : FileDump) (rmFault mkFault : Option Err)
    (hlock : f.locked = false) :
    ∃ g r, f.Clear rmFault mkFault = some (g, r) ∧
      (r ≠ none ↔ (f.fs.dir = true ∧ rmFault ≠ none) ∨ mkFault ≠ none) ∧
      (∀ e, f.fs.dir = true → rmFault = some e → r = some e) ∧
      (∀ e, f.fs.dir = false ∨ rmFault = none → mkFault = some e → r = some e) ∧
      (f.fs.dir = false ∨ rmFault = none → mkFault = none → r = none) := by
  rcases removal_cases f rmFault with ⟨hdir, e, hrm⟩ | hrm
  · subst hrm
    refine ⟨_, _, Clear_remove_fails f e mkFault hlock hdir, ?_, ?_, ?_, ?_⟩
    · simp [hdir]
    · intro e1 _ h; exact h.symm ▸ rfl
    · intro e1 h; rcases h with h | h
      · rw [hdir] at h; cases h
      · cases h
    · intro h; rcases h with h | h
      · rw [hdir] at h; cases h
      · cases h
  · have hno : ¬ (f.fs.dir = true ∧ rmFault ≠ none) := by
      rintro ⟨hdir, hne⟩
      rcases hrm with h1 | h1
      · rw [hdir] at h1; cases h1
      · exact hne h1
    cases mkFault with
    | some e =>
      refine ⟨_, _, Clear_mkdir_fails f rmFault e hlock hrm, ?_, ?_, ?_, ?_⟩
      · simp
      · intro e1 hdir h
        exact absurd ⟨hdir, by rw [h]; simp⟩ hno
      · intro e1 _ h
        exact h.symm ▸ rfl
      · intro _ h; cases h
    | none =>
      refine ⟨_, _, Clear_succeeds f rmFault hlock hrm, ?_, ?_, ?_, ?_⟩
      · simpa using hno
      · intro e1 hdir h
        exact absurd ⟨hdir, by rw [h]; simp⟩ hno
      · intro e1 _ h; cases h
      · intro _ _; rfl

/-- Witness of C13: the directory is present, its removal succeeds and its
recreation fails. -/
theorem clear_error_iff_witness :
    ∃ g r, (⟨[], false, [], ⟨true, []⟩, []⟩ : FileDump).Clear none (some "read-only file system") =
        some (g, r) ∧
      (r ≠ none ↔ ((⟨true, []⟩ : FS).dir = true ∧ (none : Option Err) ≠ none) ∨
        (some "read-only file system" : Option Err) ≠ none) ∧
      (∀ e, (⟨true, []⟩ : FS).dir = true → (none : Option Err) = some e → r = some e) ∧
      (∀ e, (⟨true, []⟩ : FS).dir = false ∨ (none : Option Err) = none →
        (some "read-only file system" : Option Err) = some e → r = some e) ∧
      ((⟨true, []⟩ : FS).dir = false ∨ (none : Option Err) = none →
        (some "read-only file system" : Option Err) = none → r = none) :=
  clear_error_iff ⟨[], false, [], ⟨true, []⟩, []⟩ none (some "read-only file system") rfl

/-- After a `Clear` that returned an error the lock is still held, and every
later call that takes the lock waits for ever. -/
theorem clear_error_keeps_lock (f g : FileDump) (rmFault mkFault : Option Err) (e : Err)
    (h : f.Clear rmFault mkFault = some (g, some e)) :
    g.locked = true ∧ (∀ id, g.InitDump id = none) ∧ (∀ id d, g.WriteRequest id d = none) ∧
      (∀ id d, g.WriteResponse id d = none) ∧ (∀ id, g.Complete id = none) ∧
      (∀ a b, g.Clear a b = none) := by
  have hlock : f.locked = false := by
    by_contra hl
    have : f.locked = true := by simpa using hl
    simp [FileDump.Clear, this] at h
  have hg : g.locked = true := by
    rcases removal_cases f rmFault with ⟨hdir, e1, hrm⟩ | hrm
    · subst hrm
      rw [Clear_remove_fails f e1 mkFault hlock hdir] at h
      simp only [Option.some.injEq, Prod.mk.injEq] at h
      rw [← h.1]
    · cases mkFault with
      | some e1 =>
        rw [Clear_mkdir_fails f rmFault e1 hlock hrm] at h
        simp only [Option.some.injEq, Prod.mk.injEq] at h
        rw [← h.1]
      | none =>
        rw [Clear_succeeds f rmFault hlock hrm] at h
        simp at h
  refine ⟨hg, ?_, ?_, ?_, ?_, ?_⟩
  · intro id; simp [FileDump.InitDump, hg]
  · intro id d; simp [FileDump.WriteRequest, hg]
  · intro id d; simp [FileDump.WriteResponse, hg]
  · intro id; simp [FileDump.Complete, hg]
  · intro a b; simp [FileDump.Clear, hg]

/-- C19, evaluated on the code: `Clear` on a new `FileDump` whose directory
exists, `os.Mkdir` failing. `Clear` returns the error with the lock still
held (the `return err` comes before `f.Unlock()`), and the `InitDump`,
`WriteRequest`, `WriteResponse`, `Complete` and `Clear` calls made afterwards
never get the lock. The same holds when `os.RemoveAll` fails. -/
theorem clear_error_leaves_lock_held :
    (NewFileDump ⟨true, []⟩).Clear none (some "read-only file system") =
        some (⟨[], true, [], ⟨false, []⟩, []⟩, some "read-only file system") ∧
      (NewFileDump ⟨true, []⟩).Clear (some "permission denied") none =
        some (⟨[], true, [], ⟨true, []⟩, []⟩, some "permission denied") ∧
      (⟨[], true, [], ⟨false, []⟩, []⟩ : FileDump).InitDump 1 = none ∧
      (⟨[], true, [], ⟨false, []⟩, []⟩ : FileDump).WriteRequest 1 [0] = none ∧
      (⟨[], true, [], ⟨false, []⟩, []⟩ : FileDump).WriteResponse 1 [0] = none ∧
      (⟨[], true, [], ⟨false, []⟩, []⟩ : FileDump).Complete 1 = none ∧
      (⟨[], true, [], ⟨false, []⟩, []⟩ : FileDump).Clear none none = none := by
  decide

/-! ## The flush of a worker -/

theorem set_getElem?_ne (ss : List Session) (k j : Nat) (w : Session) (hne : j ≠ k) :
    (ss.set k w)[j]? = ss[j]? := by
  rw [List.getElem?_set]
  simp [Ne.symm hne]

/-- A turn of a worker whose next command has the order `DumpOrderClose`. -/
theorem workerStep_order_close (g : FileDump) (k : Nat) (w : Session) (c : fileDumpEntity)
    (f1 f2 : Option Err) (hw : g.sessions[k]? = some w) (hret : w.returned = false)
    (hc : w.chan[w.recv]? = some c) (hord : c.order = DumpOrderClose) :
    workerStep g k f1 f2 = some { flush g w.id w.reqBuf w.respBuf f1 f2 with
      sessions := g.sessions.set k ⟨w.id, w.chan, w.recv + 1, w.reqBuf, w.respBuf, true⟩ } := by
  have hne : ¬ DumpOrderClose = DumpOrderWrite := by decide
  unfold workerStep
  simp only [hw, hret, hc, hord, hne, Bool.false_eq_true, if_false, if_true]
  rfl

/-- C18. Flush failures are not escalated. On a close command the worker
calls `ioutil.WriteFile` for the request artifact and then for the response
artifact, with its two buffers, whatever the first call returns; then it
returns, for every combination of outcomes of the two writes, and takes no
further turn. Its turn yields no error; the registry, the lock and every
other session are as before. -/
theorem flush_failures_not_escalated (f : FileDump) (k : Nat) (w : Session)
    (c : fileDumpEntity) (f1 f2 : Option Err) (hw : f.sessions[k]? = some w)
    (hret : w.returned = false) (hc : w.chan[w.recv]? = some c)
    (hord : c.order = DumpOrderClose) :
    ∃ g w1 e1 e2, workerStep f k f1 f2 = some g ∧
      g.writes = f.writes ++
        [(requestFile w.id, w.reqBuf, e1), (responseFile w.id, w.respBuf, e2)] ∧
      (∀ err, f1 = some err → e1 = some err) ∧ (∀ err, f2 = some err → e2 = some err) ∧
      g.sessions[k]? = some w1 ∧ w1.returned = true ∧
      (∀ a b, workerStep g k a b = none) ∧
      (∀ j, j ≠ k → g.sessions[j]? = f.sessions[j]?) ∧
      g.sessions.length = f.sessions.length ∧
      g.Actives = f.Actives ∧ g.locked = f.locked := by
  have hk : k < f.sessions.length := (List.getElem?_eq_some.1 hw).1
  have hstep := workerStep_order_close f k w c f1 f2 hw hret hc hord
  have hk1 : ({ flush f w.id w.reqBuf w.respBuf f1 f2 with
      sessions := f.sessions.set k ⟨w.id, w.chan, w.recv + 1, w.reqBuf, w.respBuf, true⟩ }
        : FileDump).sessions[k]? =
      some ⟨w.id, w.chan, w.recv + 1, w.reqBuf, w.respBuf, true⟩ := by
    simp [List.getElem?_set, hk]
  refine ⟨_, ⟨w.id, w.chan, w.recv + 1, w.reqBuf, w.respBuf, true⟩,
    (WriteFile f.fs (requestFile w.id) w.reqBuf f1).2,
    (WriteFile (WriteFile f.fs (requestFile w.id) w.reqBuf f1).1 (responseFile w.id)
      w.respBuf f2).2, hstep, rfl, ?_, ?_, hk1, rfl, ?_, ?_, ?_, rfl, rfl⟩
  · intro err h
    subst h
    rfl
  · intro err h
    subst h
    rfl
  · intro a b
    unfold workerStep
    simp only [hk1]
    rfl
  · intro j hj
    exact set_getElem?_ne f.sessions k j _ hj
  · simp [flush]

/-- Witness of C18: the worker of session 7 receives the close command; the
write of the request artifact fails and the write of the response artifact
succeeds. -/
theorem flush_failures_not_escalated_witness :
    ∃ g w1 e1 e2,
      workerStep ⟨[], false, [⟨7, [⟨[1], 0, 2⟩, ⟨[], 1, 0⟩], 1, [1], [], false⟩,
          ⟨8, [], 0, [], [], false⟩], ⟨true, []⟩, []⟩ 0 (some "disk full") none = some g ∧
      g.writes = [] ++ [(requestFile 7, [1], e1), (responseFile 7, [], e2)] ∧
      (∀ err, (some "disk full" : Option Err) = some err → e1 = some err) ∧
      (∀ err, (none : Option Err) = some err → e2 = some err) ∧
      g.sessions[0]? = some w1 ∧ w1.returned = true ∧
      (∀ a b, workerStep g 0 a b = none) ∧
      (∀ j, j ≠ 0 → g.sessions[j]? =
        [(⟨7, [⟨[1], 0, 2⟩, ⟨[], 1, 0⟩], 1, [1], [], false⟩ : Session),
          ⟨8, [], 0, [], [], false⟩][j]?) ∧
      g.sessions.length = 2 ∧ g.Actives = [] ∧ g.locked = false :=
  flush_failures_not_escalated
    ⟨[], false, [⟨7, [⟨[1], 0, 2⟩, ⟨[], 1, 0⟩], 1, [1], [], false⟩, ⟨8, [], 0, [], [], false⟩],
      ⟨true, []⟩, []⟩ 0 ⟨7, [⟨[1], 0, 2⟩, ⟨[], 1, 0⟩], 1, [1], [], false⟩ ⟨[], 1, 0⟩
    (some "disk full") none rfl rfl rfl rfl

end shuttle

namespace shuttle

/-! ## The invariant of the registry -/

theorem lookupActive_mem (m : List (Int × Nat)) (id : Int) (c : Nat)
    (h : lookupActive m id = some c) : (id, c) ∈ m := by
  induction m with
  | nil => simp [lookupActive] at h
  | cons p rest ih =>
    obtain ⟨k, d⟩ := p
    unfold lookupActive at h
    by_cases hk : k = id
    · rw [if_pos hk] at h
      simp only [Option.some.injEq] at h
      subst hk h
      exact List.mem_cons_self _ _
    · rw [if_neg hk] at h
      exact List.mem_cons_of_mem _ (ih h)

theorem lookupActive_of_mem (m : List (Int × Nat)) (id : Int) (c : Nat)
    (hnd : (m.map Prod.fst).Nodup) (h : (id, c) ∈ m) : lookupActive m id = some c := by
  induction m with
  | nil => simp at h
  | cons p rest ih =>
    obtain ⟨k, d⟩ := p
    simp only [List.map_cons, List.nodup_cons] at hnd
    unfold lookupActive
    rcases List.mem_cons.1 h with h1 | h1
    · simp only [Prod.mk.injEq] at h1
      rw [if_pos h1.1.symm, h1.2]
    · have hne : ¬ k = id := by
        intro hk
        apply hnd.1
        rw [hk]
        exact List.mem_map.2 ⟨(id, c), h1, rfl⟩
      rw [if_neg hne]
      exact ih hnd.2 h1

theorem mem_deleteActive (m : List (Int × Nat)) (id : Int) (p : Int × Nat) :
    p ∈ deleteActive m id ↔ p ∈ m ∧ p.1 ≠ id := by
  simp [deleteActive, List.mem_filter]

theorem deleteActive_sublist (m : List (Int × Nat)) (id : Int) :
    (deleteActive m id).Sublist m :=
  List.filter_sublist _

theorem send_getElem? (ss : List Session) (c k : Nat) (e : fileDumpEntity) :
    (send ss c e)[k]? =
      if k = c then (ss[k]?).map (fun w => { w with chan := w.chan ++ [e] }) else ss[k]? := by
  by_cases hk : k = c
  · subst hk
    rw [if_pos rfl]
    cases hw : ss[k]? with
    | some w => rw [send_getElem?_same ss k e w hw]; rfl
    | none =>
      have hlen : ss.length ≤ k := by
        by_contra h
        rw [List.getElem?_eq_getElem (by omega)] at hw
        cases hw
      rw [List.getElem?_eq_none (by rw [send_length]; exact hlen)]
      rfl
  · rw [if_neg hk]
    exact send_getElem?_ne ss c k e hk

theorem sendAll_getElem? (cs : List Nat) : ∀ (ss : List Session) (k : Nat), cs.Nodup →
    (sendAll cs ss)[k]? =
      if k ∈ cs then (ss[k]?).map (fun w => { w with chan := w.chan ++ [closeCmd] })
      else ss[k]? := by
  induction cs with
  | nil => intro ss k _; simp [sendAll]
  | cons c rest ih =>
    intro ss k hnd
    simp only [List.nodup_cons] at hnd
    have hunfold : sendAll (c :: rest) ss = sendAll rest (send ss c closeCmd) := rfl
    rw [hunfold, ih (send ss c closeCmd) k hnd.2, send_getElem?]
    by_cases hk : k = c
    · subst hk
      simp [hnd.1]
    · by_cases hr : k ∈ rest
      · simp [hk, hr]
      · simp [hk, hr]

theorem sendAll_length (cs : List Nat) : ∀ ss : List Session,
    (sendAll cs ss).length = ss.length := by
  induction cs with
  | nil => intro ss; rfl
  | cons c rest ih =>
    intro ss
    have hunfold : sendAll (c :: rest) ss = sendAll rest (send ss c closeCmd) := rfl
    rw [hunfold, ih, send_length]

theorem closeAll_eq_sendAll (m : List (Int × Nat)) (l : List (Int × Nat)) :
    ∀ ss : List Session, (∀ p ∈ l, lookupActive m p.1 = some p.2) →
      closeAll m (l.map Prod.fst) ss = sendAll (l.map Prod.snd) ss := by
  induction l with
  | nil => intro ss _; rfl
  | cons p rest ih =>
    intro ss h
    have hp := h p (List.mem_cons_self _ _)
    have hstep : closeAll m ((p :: rest).map Prod.fst) ss =
        closeAll m (rest.map Prod.fst) (send ss p.2 closeCmd) := by
      simp only [closeAll, List.map_cons, List.foldl_cons, hp]
    have hunfold : sendAll ((p :: rest).map Prod.snd) ss =
        sendAll (rest.map Prod.snd) (send ss p.2 closeCmd) := rfl
    rw [hstep, hunfold]
    exact ih _ (fun q hq => h q (List.mem_cons_of_mem _ hq))

theorem closeAll_registry (m : List (Int × Nat)) (ss : List Session)
    (hnd : (m.map Prod.fst).Nodup) :
    closeAll m (m.map Prod.fst) ss = sendAll (m.map Prod.snd) ss :=
  closeAll_eq_sendAll m m ss (fun p hp => lookupActive_of_mem m p.1 p.2 hnd hp)

theorem channelOK_mono (r1 r2 : Prop) (w : Session) (h : r2 → r1) (hok : ChannelOK r1 w) :
    ChannelOK r2 w := by
  obtain ⟨cs, hcs, hcase⟩ := hok
  refine ⟨cs, hcs, ?_⟩
  rcases hcase with h1 | ⟨hn, h2⟩
  · exact Or.inl h1
  · exact Or.inr ⟨fun hr => hn (h hr), h2⟩

/-- A registered channel has been sent append commands only. -/
theorem channelOK_registered (r : Prop) (w : Session) (hr : r) (hok : ChannelOK r w) :
    (∀ c ∈ w.chan, isAppend c) ∧ w.returned = false ∧ w.recv ≤ w.chan.length := by
  obtain ⟨cs, hcs, hcase⟩ := hok
  rcases hcase with ⟨h1, h2, h3⟩ | ⟨hn, _⟩
  · rw [h1]; exact ⟨hcs, h2, h3⟩
  · exact absurd hr hn

theorem registryOK_new (fs : FS) : RegistryOK (NewFileDump fs) := by
  refine ⟨List.nodup_nil, List.nodup_nil, ?_, ?_⟩
  · intro p hp; simp [NewFileDump] at hp
  · intro k w hw; simp [NewFileDump] at hw

theorem registryOK_InitDump (f : FileDump) (id : Int) (hok : RegistryOK f) :
    RegistryOK { f with
      Actives := (id, f.sessions.length) :: deleteActive f.Actives id
      sessions := f.sessions ++ [⟨id, [], 0, [], [], false⟩] } := by
  obtain ⟨hk, hc, hlt, hch⟩ := hok
  have hsub := deleteActive_sublist f.Actives id
  refine ⟨?_, ?_, ?_, ?_⟩
  · simp only [List.map_cons, List.nodup_cons]
    refine ⟨?_, (hsub.map Prod.fst).nodup hk⟩
    intro hmem
    obtain ⟨p, hp, hp1⟩ := List.mem_map.1 hmem
    exact ((mem_deleteActive f.Actives id p).1 hp).2 hp1
  · simp only [List.map_cons, List.nodup_cons]
    refine ⟨?_, (hsub.map Prod.snd).nodup hc⟩
    intro hmem
    obtain ⟨p, hp, hp1⟩ := List.mem_map.1 hmem
    have := hlt p ((mem_deleteActive f.Actives id p).1 hp).1
    omega
  · intro p hp
    simp only [List.length_append, List.length_singleton]
    rcases List.mem_cons.1 hp with h | h
    · rw [h]; simp
    · have := hlt p ((mem_deleteActive f.Actives id p).1 h).1
      omega
  · intro k w hw
    by_cases hkl : k < f.sessions.length
    · have hw2 : f.sessions[k]? = some w := by
        rw [← hw]
        exact (List.getElem?_append_left hkl).symm
      apply channelOK_mono _ _ w _ (hch k w hw2)
      intro hmem
      simp only [List.map_cons, List.mem_cons] at hmem
      rcases hmem with h | h
      · omega
      · exact (hsub.map Prod.snd).subset h
    · have hkl2 : f.sessions.length ≤ k := by omega
      have hw2 : (f.sessions ++ [(⟨id, [], 0, [], [], false⟩ : Session)])[k]? = some w := hw
      rw [List.getElem?_append_right hkl2] at hw2
      have hz : k - f.sessions.length = 0 := by
        by_contra hne
        have : (k - f.sessions.length) = (k - f.sessions.length - 1) + 1 := by omega
        rw [this] at hw2
        simp at hw2
      rw [hz] at hw2
      simp only [List.getElem?_cons_zero, Option.some.injEq] at hw2
      subst hw2
      exact ⟨[], fun c hc => by simp at hc, Or.inl ⟨rfl, rfl, Nat.le_refl _⟩⟩

theorem registryOK_append (f : FileDump) (id : Int) (c : Nat) (e : fileDumpEntity)
    (hok : RegistryOK f) (hreg : lookupActive f.Actives id = some c) (he : isAppend e) :
    RegistryOK { f with sessions := send f.sessions c e } := by
  obtain ⟨hk, hc, hlt, hch⟩ := hok
  have hmem : c ∈ f.Actives.map Prod.snd :=
    List.mem_map.2 ⟨(id, c), lookupActive_mem f.Actives id c hreg, rfl⟩
  refine ⟨hk, hc, ?_, ?_⟩
  · intro p hp
    simp only [send_length]
    exact hlt p hp
  · intro k w hw
    have hw2 : (send f.sessions c e)[k]? = some w := hw
    rw [send_getElem?] at hw2
    by_cases hkc : k = c
    · rw [if_pos hkc] at hw2
      cases hold : f.sessions[k]? with
      | none => rw [hold] at hw2; simp at hw2
      | some v =>
        rw [hold] at hw2
        simp only [Option.map_some', Option.some.injEq] at hw2
        subst hw2
        have hv := channelOK_registered _ v (by rw [hkc]; exact hmem) (hch k v hold)
        refine ⟨v.chan ++ [e], ?_, Or.inl ⟨rfl, hv.2.1, ?_⟩⟩
        · intro d hd
          rcases List.mem_append.1 hd with h | h
          · exact hv.1 d h
          · rw [List.mem_singleton.1 h]; exact he
        · simp only [List.length_append, List.length_singleton]
          have := hv.2.2
          omega
    · rw [if_neg hkc] at hw2
      exact hch k w hw2

theorem registryOK_Complete (f : FileDump) (id : Int) (c : Nat)
    (hok : RegistryOK f) (hreg : lookupActive f.Actives id = some c) :
    RegistryOK { f with
      Actives := deleteActive f.Actives id
      sessions := send f.sessions c closeCmd } := by
  obtain ⟨hk, hc, hlt, hch⟩ := hok
  have hsub := deleteActive_sublist f.Actives id
  have hin : (id, c) ∈ f.Actives := lookupActive_mem f.Actives id c hreg
  have hmem : c ∈ f.Actives.map Prod.snd := List.mem_map.2 ⟨(id, c), hin, rfl⟩
  have hgone : c ∉ (deleteActive f.Actives id).map Prod.snd := by
    intro h
    obtain ⟨p, hp, hp2⟩ := List.mem_map.1 h
    obtain ⟨hpm, hpne⟩ := (mem_deleteActive f.Actives id p).1 hp
    have heq : p = (id, c) := List.inj_on_of_nodup_map hc hpm hin hp2
    rw [heq] at hpne
    exact hpne rfl
  refine ⟨(hsub.map Prod.fst).nodup hk, (hsub.map Prod.snd).nodup hc, ?_, ?_⟩
  · intro p hp
    simp only [send_length]
    exact hlt p ((mem_deleteActive f.Actives id p).1 hp).1
  · intro k w hw
    have hw2 : (send f.sessions c closeCmd)[k]? = some w := hw
    rw [send_getElem?] at hw2
    by_cases hkc : k = c
    · rw [if_pos hkc] at hw2
      cases hold : f.sessions[k]? with
      | none => rw [hold] at hw2; simp at hw2
      | some v =>
        rw [hold] at hw2
        simp only [Option.map_some', Option.some.injEq] at hw2
        subst hw2
        have hv := channelOK_registered _ v (by rw [hkc]; exact hmem) (hch k v hold)
        refine ⟨v.chan, hv.1, Or.inr ⟨?_, rfl, Or.inl ⟨hv.2.1, hv.2.2⟩⟩⟩
        rw [hkc]
        exact hgone
    · rw [if_neg hkc] at hw2
      apply channelOK_mono _ _ w _ (hch k w hw2)
      intro h
      exact (hsub.map Prod.snd).subset h

theorem registryOK_Clear (f g : FileDump) (hok : RegistryOK f) (hA : g.Actives = [])
    (hS : g.sessions = closeAll f.Actives (f.Actives.map Prod.fst) f.sessions) :
    RegistryOK g := by
  obtain ⟨hk, hc, hlt, hch⟩ := hok
  rw [closeAll_registry f.Actives f.sessions hk] at hS
  refine ⟨by rw [hA]; exact List.nodup_nil, by rw [hA]; exact List.nodup_nil, ?_, ?_⟩
  · intro p hp
    rw [hA] at hp
    simp at hp
  · intro k w hw
    rw [hS, sendAll_getElem? _ _ _ hc] at hw
    by_cases hmem : k ∈ f.Actives.map Prod.snd
    · rw [if_pos hmem] at hw
      cases hold : f.sessions[k]? with
      | none => rw [hold] at hw; simp at hw
      | some v =>
        rw [hold] at hw
        simp only [Option.map_some', Option.some.injEq] at hw
        subst hw
        have hv := channelOK_registered _ v hmem (hch k v hold)
        refine ⟨v.chan, hv.1, Or.inr ⟨?_, rfl, Or.inl ⟨hv.2.1, hv.2.2⟩⟩⟩
        rw [hA]
        simp
    · rw [if_neg hmem] at hw
      apply channelOK_mono _ _ w _ (hch k w hw)
      intro h
      rw [hA] at h
      simp at h

theorem registryOK_set (f g : FileDump) (k : Nat) (w1 : Session) (hok : RegistryOK f)
    (hA : g.Actives = f.Actives) (hS : g.sessions = f.sessions.set k w1)
    (h1 : ChannelOK (k ∈ f.Actives.map Prod.snd) w1) : RegistryOK g := by
  obtain ⟨hk, hc, hlt, hch⟩ := hok
  refine ⟨by rw [hA]; exact hk, by rw [hA]; exact hc, ?_, ?_⟩
  · intro p hp
    rw [hA] at hp
    rw [hS, List.length_set]
    exact hlt p hp
  · intro j w hw
    rw [hA]
    rw [hS] at hw
    by_cases hj : j = k
    · subst hj
      rw [List.getElem?_set] at hw
      simp only [if_true] at hw
      split at hw
      · simp only [Option.some.injEq] at hw
        subst hw
        exact h1
      · cases hw
    · rw [set_getElem?_ne f.sessions k j w1 hj] at hw
      exact hch j w hw

theorem registryOK_work (f g : FileDump) (k : Nat) (f1 f2 : Option Err) (hok : RegistryOK f)
    (hstep : workerStep f k f1 f2 = some g) : RegistryOK g := by
  cases hw : f.sessions[k]? with
  | none =>
    unfold workerStep at hstep
    simp [hw] at hstep
  | some w =>
    cases hret : w.returned with
    | true =>
      unfold workerStep at hstep
      simp [hw, hret] at hstep
    | false =>
      cases hc : w.chan[w.recv]? with
      | none =>
        unfold workerStep at hstep
        simp [hw, hret, hc] at hstep
      | some c =>
        have hlt : w.recv < w.chan.length := (List.getElem?_eq_some.1 hc).1
        obtain ⟨cs, hcs, hcase⟩ := hok.2.2.2 k w hw
        -- the turn on an append command
        have happ : c ∈ cs →
            ChannelOK (k ∈ f.Actives.map Prod.snd) ⟨w.id, w.chan, w.recv + 1,
              w.reqBuf ++ reqOf [c], w.respBuf ++ respOf [c], false⟩ → RegistryOK g := by
          intro hmem hnew
          rw [workerStep_write f k w c f1 f2 hw hret hc (hcs c hmem).1] at hstep
          simp only [Option.some.injEq] at hstep
          subst hstep
          exact registryOK_set f _ k _ hok rfl rfl hnew
        rcases hcase with ⟨hch, _, hrecv⟩ | ⟨hn, hch, hsub⟩
        · have hmem : c ∈ cs := by rw [← hch]; exact List.getElem?_mem hc
          apply happ hmem
          exact ⟨cs, hcs, Or.inl ⟨hch, rfl, by rw [← hch]; exact hlt⟩⟩
        · rcases hsub with ⟨_, hrecv⟩ | ⟨hr, _⟩
          · by_cases hin : w.recv < cs.length
            · have hmem : c ∈ cs := by
                rw [hch, List.getElem?_append_left hin] at hc
                exact List.getElem?_mem hc
              apply happ hmem
              exact ⟨cs, hcs, Or.inr ⟨hn, hch, Or.inl ⟨rfl, hin⟩⟩⟩
            · have heq : w.recv = cs.length := by omega
              have hcc : c = closeCmd := by
                rw [hch, heq] at hc
                simpa using hc.symm
              subst hcc
              rw [workerStep_close f k w f1 f2 hw hret hc] at hstep
              simp only [Option.some.injEq] at hstep
              subst hstep
              refine registryOK_set f _ k _ hok rfl rfl ?_
              exact ⟨cs, hcs, Or.inr ⟨hn, hch, Or.inr ⟨rfl, by simp only; omega⟩⟩⟩
          · rw [hret] at hr
            cases hr

theorem Complete_registered (f : FileDump) (id : Int) (c : Nat) (hl : f.locked = false)
    (hreg : lookupActive f.Actives id = some c) :
    f.Complete id = some ({ f with
      Actives := deleteActive f.Actives id
      sessions := send f.sessions c closeCmd }, (none : Option Err)) := by
  unfold FileDump.Complete
  rw [if_neg (by simp [hl])]
  simp only [hreg]

theorem Complete_unregistered (f : FileDump) (id : Int) (hl : f.locked = false)
    (hreg : lookupActive f.Actives id = none) :
    f.Complete id = some (f, (none : Option Err)) := by
  unfold FileDump.Complete
  rw [if_neg (by simp [hl])]
  simp only [hreg]

theorem InitDump_unlocked (f : FileDump) (id : Int) (hl : f.locked = false) :
    f.InitDump id = some ({ f with
      Actives := (id, f.sessions.length) :: deleteActive f.Actives id
      sessions := f.sessions ++ [⟨id, [], 0, [], [], false⟩] }, (none : Option Err)) := by
  unfold FileDump.InitDump
  rw [if_neg (by simp [hl])]

theorem isAppend_data (c : fileDumpEntity) (d : Bytes) (h : isAppend c) :
    isAppend ⟨d, c.order, c.entityType⟩ := h

/-- A store of the caller into a queued slice changes the bytes of one append
command and nothing else. -/
theorem registryOK_overwrite (f g : FileDump) (k i : Nat) (d : Bytes) (hok : RegistryOK f)
    (hstep : f.overwrite k i d = some g) : RegistryOK g := by
  unfold FileDump.overwrite at hstep
  cases hw : f.sessions[k]? with
  | none => simp [hw] at hstep
  | some w =>
    simp only [hw] at hstep
    cases hc : w.chan[i]? with
    | none => simp [hc] at hstep
    | some c =>
      simp only [hc] at hstep
      by_cases hcond : c.order = DumpOrderWrite ∧ c.data.length = d.length
      · rw [if_pos hcond] at hstep
        by_cases hi : i < w.recv
        · rw [if_pos hi] at hstep
          simp only [Option.some.injEq] at hstep
          subst hstep
          exact hok
        · rw [if_neg hi] at hstep
          simp only [Option.some.injEq] at hstep
          subst hstep
          have hlt : i < w.chan.length := (List.getElem?_eq_some.1 hc).1
          have hne : c ≠ closeCmd := by
            intro h
            rw [h] at hcond
            exact absurd hcond.1 (by decide)
          obtain ⟨cs, hcs, hcase⟩ := hok.2.2.2 k w hw
          have hics : i < cs.length := by
            rcases hcase with ⟨hch, _, _⟩ | ⟨_, hch, _⟩
            · rw [← hch]; exact hlt
            · by_contra hge
              have hlen : w.chan.length = cs.length + 1 := by rw [hch]; simp
              have heq : i = cs.length := by omega
              rw [hch, heq] at hc
              simp at hc
              exact hne hc.symm
          have hcmem : c ∈ cs := by
            rcases hcase with ⟨hch, _, _⟩ | ⟨_, hch, _⟩
            · rw [← hch]; exact List.getElem?_mem hc
            · rw [hch, List.getElem?_append_left hics] at hc
              exact List.getElem?_mem hc
          have hcs2 : ∀ x ∈ cs.set i ⟨d, c.order, c.entityType⟩, isAppend x := by
            intro x hx
            rcases List.mem_or_eq_of_mem_set hx with h | h
            · exact hcs x h
            · rw [h]; exact isAppend_data c d (hcs c hcmem)
          refine registryOK_set f _ k _ hok rfl rfl ?_
          refine ⟨cs.set i ⟨d, c.order, c.entityType⟩, hcs2, ?_⟩
          rcases hcase with ⟨hch, hret, hrecv⟩ | ⟨hn, hch, hsub⟩
          · refine Or.inl ⟨?_, hret, ?_⟩
            · show w.chan.set i _ = _
              rw [hch]
            · rw [List.length_set]; exact hrecv
          · refine Or.inr ⟨hn, ?_, ?_⟩
            · show w.chan.set i _ = _
              rw [hch, List.set_append, if_pos hics]
            · rw [List.length_set]; exact hsub
      · rw [if_neg hcond] at hstep
        cases hstep

/-- A call that takes the lock does not return while the lock is held. -/
theorem step_locked (f : FileDump) (e : Event) (hl : f.locked = true)
    (hnot : ∀ k a b, e ≠ Event.work k a b) (hnot2 : ∀ k i d, e ≠ Event.overwrite k i d) :
    f.step e = none := by
  cases e with
  | InitDump id => simp [FileDump.step, FileDump.InitDump, hl]
  | WriteRequest id d => simp [FileDump.step, FileDump.WriteRequest, hl]
  | WriteResponse id d => simp [FileDump.step, FileDump.WriteResponse, hl]
  | Complete id => simp [FileDump.step, FileDump.Complete, hl]
  | Clear a b => simp [FileDump.step, FileDump.Clear, hl]
  | work k a b => exact absurd rfl (hnot k a b)
  | overwrite k i d => exact absurd rfl (hnot2 k i d)

theorem registryOK_step (f g : FileDump) (e : Event) (hok : RegistryOK f)
    (hstep : f.step e = some g) : RegistryOK g := by
  by_cases hwork : ∃ k a b, e = Event.work k a b
  · obtain ⟨k, a, b, he⟩ := hwork
    subst he
    exact registryOK_work f g k a b hok hstep
  by_cases hover : ∃ k i d, e = Event.overwrite k i d
  · obtain ⟨k, i, d, he⟩ := hover
    subst he
    exact registryOK_overwrite f g k i d hok hstep
  · have hnot : ∀ k a b, e ≠ Event.work k a b := fun k a b h => hwork ⟨k, a, b, h⟩
    have hnot2 : ∀ k i d, e ≠ Event.overwrite k i d := fun k i d h => hover ⟨k, i, d, h⟩
    have hl : f.locked = false := by
      cases hlk : f.locked with
      | false => rfl
      | true =>
        rw [step_locked f e hlk hnot hnot2] at hstep
        cases hstep
    cases e with
    | InitDump id =>
      simp only [FileDump.step, InitDump_unlocked f id hl, Option.map_some',
        Option.some.injEq] at hstep
      subst hstep
      exact registryOK_InitDump f id hok
    | WriteRequest id d =>
      cases hreg : lookupActive f.Actives id with
      | none =>
        simp only [FileDump.step, WriteRequest_unregistered f id d hl hreg, Option.map_some',
          Option.some.injEq] at hstep
        subst hstep
        exact hok
      | some c =>
        simp only [FileDump.step, WriteRequest_registered f id d c hl hreg, Option.map_some',
          Option.some.injEq] at hstep
        subst hstep
        exact registryOK_append f id c _ hok hreg ⟨rfl, Or.inl rfl⟩
    | WriteResponse id d =>
      cases hreg : lookupActive f.Actives id with
      | none =>
        simp only [FileDump.step, WriteResponse_unregistered f id d hl hreg, Option.map_some',
          Option.some.injEq] at hstep
        subst hstep
        exact hok
      | some c =>
        simp only [FileDump.step, WriteResponse_registered f id d c hl hreg, Option.map_some',
          Option.some.injEq] at hstep
        subst hstep
        exact registryOK_append f id c _ hok hreg ⟨rfl, Or.inr rfl⟩
    | Complete id =>
      cases hreg : lookupActive f.Actives id with
      | none =>
        simp only [FileDump.step, Complete_unregistered f id hl hreg, Option.map_some',
          Option.some.injEq] at hstep
        subst hstep
        exact hok
      | some c =>
        simp only [FileDump.step, Complete_registered f id c hl hreg, Option.map_some',
          Option.some.injEq] at hstep
        subst hstep
        exact registryOK_Complete f id c hok hreg
    | Clear a b =>
      rcases removal_cases f a with ⟨hdir, e1, hrm⟩ | hrm
      · subst hrm
        simp only [FileDump.step, Clear_remove_fails f e1 b hl hdir, Option.map_some',
          Option.some.injEq] at hstep
        subst hstep
        exact registryOK_Clear f _ hok rfl rfl
      · cases b with
        | some e1 =>
          simp only [FileDump.step, Clear_mkdir_fails f a e1 hl hrm, Option.map_some',
            Option.some.injEq] at hstep
          subst hstep
          exact registryOK_Clear f _ hok rfl rfl
        | none =>
          simp only [FileDump.step, Clear_succeeds f a hl hrm, Option.map_some',
            Option.some.injEq] at hstep
          subst hstep
          exact registryOK_Clear f _ hok rfl rfl
    | work k a b => exact absurd rfl (hnot k a b)
    | overwrite k i d => exact absurd rfl (hnot2 k i d)

theorem registryOK_run (evs : List Event) : ∀ (f g : FileDump), RegistryOK f →
    f.run evs = some g → RegistryOK g := by
  induction evs with
  | nil =>
    intro f g hok hrun
    simp only [FileDump.run, Option.some.injEq] at hrun
    subst hrun
    exact hok
  | cons e rest ih =>
    intro f g hok hrun
    unfold FileDump.run at hrun
    cases hstep : f.step e with
    | none => simp [hstep] at hrun
    | some f1 =>
      simp only [hstep] at hrun
      exact ih f1 g (registryOK_step f f1 e hok hstep) hrun

/-- C17. In every state of the capture pipeline reached from a new `FileDump`
by `InitDump`, `WriteRequest`, `WriteResponse`, `Complete` and `Clear` calls,
turns of the workers and stores of the callers into slices they have passed,
in any order and for any ids, every channel holds
append commands followed by at most one close command, which is then the
last command; a channel that is registered holds no close command; a worker
that has not returned has received append commands only, and a worker that
has returned has received the close command as the last command of its
channel. -/
theorem close_is_last_command (fs : FS) (evs : List Event) (f : FileDump)
    (hrun : (NewFileDump fs).run evs = some f) :
    ∀ k w, f.sessions[k]? = some w →
      ∃ cs, (∀ c ∈ cs, isAppend c) ∧ (w.chan = cs ∨ w.chan = cs ++ [closeCmd]) ∧
        (k ∈ f.Actives.map Prod.snd → w.chan = cs) ∧
        (w.returned = false → w.recv ≤ cs.length) ∧
        (w.returned = true → w.chan = cs ++ [closeCmd] ∧ w.recv = w.chan.length) := by
  intro k w hw
  obtain ⟨cs, hcs, hcase⟩ := (registryOK_run evs _ f (registryOK_new fs) hrun).2.2.2 k w hw
  refine ⟨cs, hcs, ?_, ?_, ?_, ?_⟩
  · rcases hcase with h | ⟨_, h, _⟩
    · exact Or.inl h.1
    · exact Or.inr h
  · intro hreg
    rcases hcase with h | ⟨hn, _⟩
    · exact h.1
    · exact absurd hreg hn
  · intro hret
    rcases hcase with h | ⟨_, _, h | h⟩
    · exact h.2.2
    · exact h.2
    · rw [hret] at h
      cases h.1
  · intro hret
    rcases hcase with h | ⟨_, hch, h | h⟩
    · rw [hret] at h
      cases h.2.1
    · rw [hret] at h
      cases h.1
    · refine ⟨hch, ?_⟩
      rw [hch, h.2]
      simp

/-- Witness of C17: session 7 is written to, completed twice and flushed by
its worker; session 8 is registered meanwhile and written to afterwards. The
channel of session 7 in the state reached. -/
theorem close_is_last_command_witness :
    ∃ cs, (∀ c ∈ cs, isAppend c) ∧
      ((⟨7, [⟨[1], 0, 2⟩, ⟨[], 1, 0⟩], 2, [1], [], true⟩ : Session).chan = cs ∨
        (⟨7, [⟨[1], 0, 2⟩, ⟨[], 1, 0⟩], 2, [1], [], true⟩ : Session).chan = cs ++ [closeCmd]) ∧
      (0 ∈ ([(8, 1)] : List (Int × Nat)).map Prod.snd →
        (⟨7, [⟨[1], 0, 2⟩, ⟨[], 1, 0⟩], 2, [1], [], true⟩ : Session).chan = cs) ∧
      ((⟨7, [⟨[1], 0, 2⟩, ⟨[], 1, 0⟩], 2, [1], [], true⟩ : Session).returned = false →
        (⟨7, [⟨[1], 0, 2⟩, ⟨[], 1, 0⟩], 2, [1], [], true⟩ : Session).recv ≤ cs.length) ∧
      ((⟨7, [⟨[1], 0, 2⟩, ⟨[], 1, 0⟩], 2, [1], [], true⟩ : Session).returned = true →
        (⟨7, [⟨[1], 0, 2⟩, ⟨[], 1, 0⟩], 2, [1], [], true⟩ : Session).chan = cs ++ [closeCmd] ∧
        (⟨7, [⟨[1], 0, 2⟩, ⟨[], 1, 0⟩], 2, [1], [], true⟩ : Session).recv =
          (⟨7, [⟨[1], 0, 2⟩, ⟨[], 1, 0⟩], 2, [1], [], true⟩ : Session).chan.length) :=
  close_is_last_command ⟨true, []⟩
    [Event.InitDump 7, Event.WriteRequest 7 [1], Event.InitDump 8, Event.Complete 7,
      Event.Complete 7, Event.work 0 none none, Event.work 0 none none,
      Event.WriteResponse 8 [2]]
    ⟨[(8, 1)], false,
      [⟨7, [⟨[1], 0, 2⟩, ⟨[], 1, 0⟩], 2, [1], [], true⟩, ⟨8, [⟨[2], 0, 3⟩], 0, [], [], false⟩],
      ⟨true, [("./temp/7_reponse.txt", []), ("./temp/7_request.txt", [1])]⟩,
      [("./temp/7_request.txt", [1], none), ("./temp/7_reponse.txt", [], none)]⟩
    (by decide) 0 ⟨7, [⟨[1], 0, 2⟩, ⟨[], 1, 0⟩], 2, [1], [], true⟩ rfl

/-! ## `Clear` -/

end shuttle
